import Mathlib

/-!
Verification development for the `datadiff` library (src/datadiff/__init__.py).

We shallowly embed the Python module: Python values become the inductive
type `Val`, Python `==` becomes `pyEq`, exceptions become the `PyErr` error
type of an `Except` monad, and every function of the module is translated
into a Lean definition of the same name (camel-cased).  The standard-library
`difflib.SequenceMatcher` machinery that the module calls (including the
default `autojunk` heuristic) is embedded as well, since the module's
observable behaviour depends on it.

Python's unbounded recursion is modelled with an explicit `fuel` parameter
(`diffV fuel ...`); exhausting it yields the error `recursionLimit`, which
models CPython's `RecursionError`.  Python's opaque, per-process `hash` of
non-text non-numeric keys and the behaviour of user-supplied comparison
callables are threaded through as the abstract environment `Ctx`.
-/

/-- The Python types that can appear in the embedded universe. `objT`
models an opaque user-defined class instance (only used as a scalar-like
leaf that may or may not be hashable). -/
inductive PyType where
  | intT | strT | listT | tupleT | dictT | setT | funcT | excT | objT
deriving DecidableEq, Repr

/-- Embedded Python values.  `dictV` keeps the mapping as an association
list in insertion order (Python 3 dicts preserve insertion order).
`setV` keeps the set as a list in the (deterministic-per-run, arbitrary)
iteration order of the Python set.  `funcV` is an opaque callable
identified by an index into the call environment `Ctx.fenv`; `excV` is an
exception object (identified, like Python object identity, by an id);
`objV id h` is an opaque object whose `h` flag says whether it is
hashable. -/
inductive Val where
  | intV (n : Int)
  | strV (s : String)
  | listV (xs : List Val)
  | tupleV (xs : List Val)
  | dictV (kvs : List (Val × Val))
  | setV (xs : List Val)
  | funcV (id : Nat)
  | excV (id : Nat) (msg : String)
  | objV (id : Nat) (hashable : Bool)
deriving Repr

/-- `type(v)` of an embedded value. -/
def pyType : Val → PyType
  | .intV _ => .intT
  | .strV _ => .strT
  | .listV _ => .listT
  | .tupleV _ => .tupleT
  | .dictV _ => .dictT
  | .setV _ => .setT
  | .funcV _ => .funcT
  | .excV _ _ => .excT
  | .objV _ _ => .objT

/-- `type(v).__name__`. -/
def pyTypeName : PyType → String
  | .intT => "int"
  | .strT => "str"
  | .listT => "list"
  | .tupleT => "tuple"
  | .dictT => "dict"
  | .setT => "set"
  | .funcT => "function"
  | .excT => "Exception"
  | .objT => "object"

/-- `callable(v)`: only the opaque function values are callable here. -/
def pyCallable : Val → Bool
  | .funcV _ => true
  | _ => false

mutual

/-- structural size of a value, used as the (always sufficient) fuel of
the equality test. -/
def valSize : Val → Nat
  | .intV _ => 1
  | .strV _ => 1
  | .listV xs => 1 + valListSize xs
  | .tupleV xs => 1 + valListSize xs
  | .dictV kvs => 1 + valPairsSize kvs
  | .setV xs => 1 + valListSize xs
  | .funcV _ => 1
  | .excV _ _ => 1
  | .objV _ _ => 1

def valListSize : List Val → Nat
  | [] => 0
  | x :: xs => valSize x + valListSize xs + 1

def valPairsSize : List (Val × Val) → Nat
  | [] => 0
  | (k, v) :: kvs => valSize k + valSize v + valPairsSize kvs + 1

end

/-- Python `==` on embedded values, by recursion on the structure of the
left value (`pyEqF fuel` with `fuel = sizeOf x` always suffices, see
`pyEqF_congr`).  Lists and tuples compare by length plus pointwise
equality, sets extensionally (mutual inclusion), dicts as Python does
(`len(a) == len(b)` and every item of `a` found, equal, in `b` — first
binding wins, as in a real dict where keys are unique); functions,
exception objects and opaque objects compare by identity. -/
def pyEqF : Nat → Val → Val → Bool
  | 0, _, _ => false
  | fuel + 1, x, y =>
    match x, y with
    | .intV m, .intV n => m == n
    | .strV s, .strV t => s == t
    | .listV xs, .listV ys =>
      xs.length == ys.length && (xs.zip ys).all fun p => pyEqF fuel p.1 p.2
    | .tupleV xs, .tupleV ys =>
      xs.length == ys.length && (xs.zip ys).all fun p => pyEqF fuel p.1 p.2
    | .setV xs, .setV ys =>
      (xs.all fun x2 => ys.any fun y2 => pyEqF fuel x2 y2) &&
        (ys.all fun y2 => xs.any fun x2 => pyEqF fuel x2 y2)
    | .dictV xs, .dictV ys =>
      xs.length == ys.length &&
        xs.all fun kv =>
          match ys.find? (fun kv2 => pyEqF fuel kv.1 kv2.1) with
          | some kv2 => pyEqF fuel kv.2 kv2.2
          | none => false
    | .funcV i, .funcV j => i == j
    | .excV i _, .excV j _ => i == j
    | .objV i _, .objV j _ => i == j
    | _, _ => false

def pyEq (x y : Val) : Bool := pyEqF (valSize x) x y

/-- `x in ys` for a list/set of values. -/
def pyMem (x : Val) (ys : List Val) : Bool := ys.any fun y => pyEq x y

/-- Python truthiness of an embedded value. -/
def pyTruthy : Val → Bool
  | .intV n => n != 0
  | .strV s => s != ""
  | .listV xs => !xs.isEmpty
  | .tupleV xs => !xs.isEmpty
  | .dictV kvs => !kvs.isEmpty
  | .setV xs => !xs.isEmpty
  | .funcV _ => true
  | .excV _ _ => true
  | .objV _ _ => true

/-- first-binding lookup `d[k]` in an association-list dict, `none` when
absent (`KeyError` territory, never hit by the differ because it checks
membership first). -/
def pyLookupOpt : List (Val × Val) → Val → Option Val
  | [], _ => none
  | (k2, v2) :: rest, k => if pyEq k k2 then some v2 else pyLookupOpt rest k

/-- `d[k]` where the key is known to be present; defaults to `intV 0`
on the unreachable miss. -/
def pyLookup (kvs : List (Val × Val)) (k : Val) : Val :=
  (pyLookupOpt kvs k).getD (.intV 0)

/-- `k in d` for dict keys. -/
def pyKeyIn (kvs : List (Val × Val)) (k : Val) : Bool :=
  (pyLookupOpt kvs k).isSome

/-- Canonical (hashable) forms of values, the output of `hashable()`:
lists and tuples become `tupleH`, dicts and sets become `fsetH`
(a frozenset, compared extensionally). -/
inductive HVal where
  | intH (n : Int)
  | strH (s : String)
  | tupleH (xs : List HVal)
  | fsetH (xs : List HVal)
  | funcH (id : Nat)
  | excH (id : Nat)
  | objH (id : Nat)
deriving Repr

mutual

def hvalSize : HVal → Nat
  | .intH _ => 1
  | .strH _ => 1
  | .tupleH xs => 1 + hvalListSize xs
  | .fsetH xs => 1 + hvalListSize xs
  | .funcH _ => 1
  | .excH _ => 1
  | .objH _ => 1

def hvalListSize : List HVal → Nat
  | [] => 0
  | x :: xs => hvalSize x + hvalListSize xs + 1

end

/-- Python `==` on canonical forms (the equality the `SequenceMatcher`
uses on alignment keys), by recursion on the left value; frozensets
compare extensionally. -/
def hvalEqF : Nat → HVal → HVal → Bool
  | 0, _, _ => false
  | fuel + 1, x, y =>
    match x, y with
    | .intH m, .intH n => m == n
    | .strH s, .strH t => s == t
    | .tupleH xs, .tupleH ys =>
      xs.length == ys.length && (xs.zip ys).all fun p => hvalEqF fuel p.1 p.2
    | .fsetH xs, .fsetH ys =>
      (xs.all fun x2 => ys.any fun y2 => hvalEqF fuel x2 y2) &&
        (ys.all fun y2 => xs.any fun x2 => hvalEqF fuel x2 y2)
    | .funcH i, .funcH j => i == j
    | .excH i, .excH j => i == j
    | .objH i, .objH j => i == j
    | _, _ => false

def hvalEq (x y : HVal) : Bool := hvalEqF (hvalSize x) x y

/-- Error universe: the module's four exception classes, the plain
`TypeError` / `IndexError` / `KeyError` that library operations (sorting,
subscripting) can raise, exceptions raised by user comparison callables,
and the fuel-exhaustion marker modelling `RecursionError`. -/
inductive PyErr where
  | notHashable
  | notSequence
  | diffTypeError (msg : String)
  | diffNotImplementedForType (ty : PyType)
  | typeError (msg : String)
  | indexError
  | keyError
  | userExc (e : Val)
  | recursionLimit
deriving Repr

/-- `isinstance(e, DiffTypeError)`: `DiffNotImplementedForType` subclasses
`DiffTypeError`. -/
def isDiffTypeError : PyErr → Bool
  | .diffTypeError _ => true
  | .diffNotImplementedForType _ => true
  | _ => false

mutual

/-- `hashable(s)` on a set element: `frozenset(s)` keeps elements
unconverted, and the `hash(ret)` validation hashes them as they are, so a
list/dict/set element (impossible in a real Python set, which is why it is
modelled as failure) or an unhashable object raises.  The functions of
this block return `Option`: `none` is the `NotHashable` exception, the
only failure `hashable()` can raise. -/
def directHash : Val → Option HVal
  | .intV n => some (.intH n)
  | .strV s => some (.strH s)
  | .tupleV xs => do some (.tupleH (← directHashList xs))
  | .listV _ => none
  | .dictV _ => none
  | .setV _ => none
  | .funcV i => some (.funcH i)
  | .excV i _ => some (.excH i)
  | .objV i h => if h then some (.objH i) else none

def directHashList : List Val → Option (List HVal)
  | [] => some []
  | x :: xs => do
    let h ← directHash x
    let hs ← directHashList xs
    some (h :: hs)

/-- `hashable(s)`: the Canonicalizer.  Lists become tuples (recursively
converted), dicts become frozensets of `(hashable(k), hashable(v))` pairs,
sets become frozensets of their (already hashable) elements; the
`hash(ret)` validation turns any unhashable leaf into `NotHashable`
(`none`). -/
def hashableV : Val → Option HVal
  | .intV n => some (.intH n)
  | .strV s => some (.strH s)
  | .listV xs => do some (.tupleH (← hashableList xs))
  | .tupleV xs => do some (.tupleH (← hashableList xs))
  | .dictV kvs => do some (.fsetH (← hashableItems kvs))
  | .setV xs => do some (.fsetH (← directHashList xs))
  | .funcV i => some (.funcH i)
  | .excV i _ => some (.excH i)
  | .objV i h => if h then some (.objH i) else none

def hashableList : List Val → Option (List HVal)
  | [] => some []
  | x :: xs => do
    let h ← hashableV x
    let hs ← hashableList xs
    some (h :: hs)

def hashableItems : List (Val × Val) → Option (List HVal)
  | [] => some []
  | (k, v) :: rest => do
    let hk ← hashableV k
    let hv ← hashableV v
    let hs ← hashableItems rest
    some (.tupleH [hk, hv] :: hs)

end

/-!  The `difflib.SequenceMatcher` machinery, as invoked by the module:
`SequenceMatcher(a=..., b=...)`, i.e. `isjunk=None` and `autojunk=True`.
With `isjunk=None` the junk set `bjunk` is empty, so the two
junk-extension loops of `find_longest_match` never run and the non-junk
extension loops have no junk test; `autojunk` still removes "popular"
elements from `b2j` when `len(b) >= 200`. -/

abbrev B2J := List (HVal × List Nat)

/-- `b2j.setdefault(elt, []).append(i)`: append the index to the (unique)
entry whose key equals the element, or add a fresh entry at the end. -/
def b2jInsert : B2J → HVal → Nat → B2J
  | [], x, j => [(x, [j])]
  | (y, js) :: rest, x, j =>
    if hvalEq y x then (y, js ++ [j]) :: rest else (y, js) :: b2jInsert rest x j

def b2jBuild : List HVal → Nat → B2J → B2J
  | [], _, acc => acc
  | x :: rest, i, acc => b2jBuild rest (i + 1) (b2jInsert acc x i)

/-- `b2j.get(x, [])`. -/
def b2jGet : B2J → HVal → List Nat
  | [], _ => []
  | (y, js) :: rest, x => if hvalEq y x then js else b2jGet rest x

/-- `__chain_b`: build `b2j`, then (autojunk, since `len(b) >= 200`)
delete the entries of "popular" elements, those occurring more than
`len(b) // 100 + 1` times. -/
def chainB (b : List HVal) : B2J :=
  let b2j := b2jBuild b 0 []
  let n := b.length
  if 200 ≤ n then
    let ntest := n / 100 + 1
    b2j.filter (fun p => decide (p.2.length ≤ ntest))
  else b2j

structure Match3 where
  besti : Nat
  bestj : Nat
  bestsize : Nat
deriving DecidableEq, Repr

abbrev J2Len := List (Nat × Nat)

def j2lenGet (m : J2Len) (j : Nat) : Nat :=
  match m.find? (fun p => p.1 == j) with
  | some p => p.2
  | none => 0

/-- Inner loop of `find_longest_match` over the ascending position list
`b2j[a[i]]`: positions `j < blo` are skipped, the loop breaks at the first
`j >= bhi`.  `k = j2len.get(j-1, 0) + 1` consults the previous row; the
Python lookup at `j - 1 = -1` (when `j = 0`) always misses, hence the
guard.  On `k > bestsize` the best match becomes `(i-k+1, j-k+1, k)`
(truncated ℕ subtraction; `k ≤ i+1` and `k ≤ j+1` hold on all reachable
states, so nothing is actually truncated). -/
def flmInner (old : J2Len) (blo bhi i : Nat) :
    List Nat → J2Len → Match3 → J2Len × Match3
  | [], new, best => (new, best)
  | j :: js, new, best =>
    if j < blo then flmInner old blo bhi i js new best
    else if bhi ≤ j then (new, best)
    else
      let k := (if j = 0 then 0 else j2lenGet old (j - 1)) + 1
      let new2 := (j, k) :: new
      if best.bestsize < k then
        flmInner old blo bhi i js new2 ⟨i + 1 - k, j + 1 - k, k⟩
      else flmInner old blo bhi i js new2 best

/-- Outer loop of the DP over the rows `i in range(alo, ahi)`. -/
def flmRows (a : List HVal) (b2j : B2J) (blo bhi : Nat) :
    List Nat → J2Len → Match3 → Match3
  | [], _, best => best
  | i :: is, old, best =>
    let step := flmInner old blo bhi i (b2jGet b2j (a.getD i (.intH 0))) [] best
    flmRows a b2j blo bhi is step.1 step.2

/-- `while besti > alo and bestj > blo and a[besti-1] == b[bestj-1]`
(structurally on `besti`, which the loop decrements). -/
def flmExtendLeft (a b : List HVal) (alo blo : Nat) :
    Nat → Nat → Nat → Match3
  | 0, bestj, bestsize => ⟨0, bestj, bestsize⟩
  | besti + 1, bestj, bestsize =>
    if alo < besti + 1 ∧ blo < bestj ∧
        hvalEq (a.getD besti (.intH 0)) (b.getD (bestj - 1) (.intH 0)) = true then
      flmExtendLeft a b alo blo besti (bestj - 1) (bestsize + 1)
    else ⟨besti + 1, bestj, bestsize⟩

/-- `while besti+bestsize < ahi and bestj+bestsize < bhi and
a[besti+bestsize] == b[bestj+bestsize]` — with an explicit fuel, always
called with `fuel = ahi`, which the guard `besti + bestsize < ahi` keeps
from ever running out. -/
def flmExtendRight (a b : List HVal) (ahi bhi besti bestj : Nat) :
    Nat → Nat → Nat
  | 0, bestsize => bestsize
  | fuel + 1, bestsize =>
    if besti + bestsize < ahi ∧ bestj + bestsize < bhi ∧
        hvalEq (a.getD (besti + bestsize) (.intH 0)) (b.getD (bestj + bestsize) (.intH 0)) = true then
      flmExtendRight a b ahi bhi besti bestj fuel (bestsize + 1)
    else bestsize

/-- `find_longest_match(alo, ahi, blo, bhi)` (`isjunk=None`). -/
def findLongestMatch (a b : List HVal) (b2j : B2J) (alo ahi blo bhi : Nat) : Match3 :=
  let best := flmRows a b2j blo bhi (List.range' alo (ahi - alo)) [] ⟨alo, blo, 0⟩
  let left := flmExtendLeft a b alo blo best.besti best.bestj best.bestsize
  let size := flmExtendRight a b ahi bhi left.besti left.bestj ahi left.bestsize
  ⟨left.besti, left.bestj, size⟩

/-- The recursive divide-and-conquer of `get_matching_blocks`, written
with in-order recursion (the original's queue plus final `sort()` yields
the same ascending block list).  The fuel bounds the recursion depth; the
top-level call supplies `la + lb + 1`, which is more than the depth the
splitting recursion (every level removes a nonempty match) can reach. -/
def matchingBlocksAux (a b : List HVal) (b2j : B2J) :
    Nat → Nat → Nat → Nat → Nat → List (Nat × Nat × Nat)
  | 0, _, _, _, _ => []
  | fuel + 1, alo, ahi, blo, bhi =>
    let m := findLongestMatch a b b2j alo ahi blo bhi
    if m.bestsize = 0 then []
    else
      matchingBlocksAux a b b2j fuel alo m.besti blo m.bestj
        ++ [(m.besti, m.bestj, m.bestsize)]
        ++ matchingBlocksAux a b b2j fuel (m.besti + m.bestsize) ahi (m.bestj + m.bestsize) bhi

/-- The adjacency-coalescing second phase of `get_matching_blocks`. -/
def mergeAdjacent : Nat → Nat → Nat → List (Nat × Nat × Nat) → List (Nat × Nat × Nat)
  | i1, j1, k1, [] => if k1 ≠ 0 then [(i1, j1, k1)] else []
  | i1, j1, k1, (i2, j2, k2) :: rest =>
    if i1 + k1 = i2 ∧ j1 + k1 = j2 then mergeAdjacent i1 j1 (k1 + k2) rest
    else (if k1 ≠ 0 then [(i1, j1, k1)] else []) ++ mergeAdjacent i2 j2 k2 rest

/-- `get_matching_blocks()`, including the terminal `(la, lb, 0)`. -/
def getMatchingBlocks (a b : List HVal) : List (Nat × Nat × Nat) :=
  let b2j := chainB b
  let la := a.length
  let lb := b.length
  mergeAdjacent 0 0 0 (matchingBlocksAux a b b2j (la + lb + 1) 0 la 0 lb) ++ [(la, lb, 0)]

inductive OpTag where
  | replace | delete | insert | equal
deriving DecidableEq, Repr

structure Opcode where
  tag : OpTag
  i1 : Nat
  i2 : Nat
  j1 : Nat
  j2 : Nat
deriving DecidableEq, Repr

def getOpcodesAux : Nat → Nat → List (Nat × Nat × Nat) → List Opcode
  | _, _, [] => []
  | i, j, (ai, bj, size) :: rest =>
    let head : List Opcode :=
      if i < ai ∧ j < bj then [⟨.replace, i, ai, j, bj⟩]
      else if i < ai then [⟨.delete, i, ai, j, bj⟩]
      else if j < bj then [⟨.insert, i, ai, j, bj⟩]
      else []
    let eqc : List Opcode := if size ≠ 0 then [⟨.equal, ai, ai + size, bj, bj + size⟩] else []
    head ++ eqc ++ getOpcodesAux (ai + size) (bj + size) rest

/-- `get_opcodes()`. -/
def getOpcodes (a b : List HVal) : List Opcode :=
  getOpcodesAux 0 0 (getMatchingBlocks a b)

/-- `get_grouped_opcodes`: trim a leading `equal` opcode to at most `n`
trailing items (index arithmetic in ℤ as in Python; `toNat` only clamps
values that Python's `max` already keeps nonnegative for `n ≥ 0`). -/
def fixupHead (n : Int) : List Opcode → List Opcode
  | ⟨.equal, i1, i2, j1, j2⟩ :: rest =>
    ⟨.equal, (max (i1 : Int) ((i2 : Int) - n)).toNat, i2,
             (max (j1 : Int) ((j2 : Int) - n)).toNat, j2⟩ :: rest
  | codes => codes

/-- `get_grouped_opcodes`: trim a trailing `equal` opcode to at most `n`
leading items. -/
def fixupLast (n : Int) (codes : List Opcode) : List Opcode :=
  match codes.getLast? with
  | some ⟨.equal, i1, i2, j1, j2⟩ =>
    codes.dropLast ++ [⟨.equal, i1, (min (i2 : Int) ((i1 : Int) + n)).toNat,
                                 j1, (min (j2 : Int) ((j1 : Int) + n)).toNat⟩]
  | _ => codes

/-- The chunking loop of `get_grouped_opcodes`: a long interior `equal`
opcode (more than `2n` items) ends the current group and starts the
next; a group consisting of a single `equal` opcode is not yielded. -/
def groupLoop (nn n : Int) : List Opcode → List Opcode → List (List Opcode)
  | [], group =>
    match group with
    | [] => []
    | [g] => if g.tag = .equal then [] else [[g]]
    | _ => [group]
  | c :: rest, group =>
    if c.tag = .equal ∧ nn < (c.i2 : Int) - (c.i1 : Int) then
      (group ++ [⟨.equal, c.i1, (min (c.i2 : Int) ((c.i1 : Int) + n)).toNat,
                          c.j1, (min (c.j2 : Int) ((c.j1 : Int) + n)).toNat⟩])
        :: groupLoop nn n rest
            [⟨.equal, (max (c.i1 : Int) ((c.i2 : Int) - n)).toNat, c.i2,
                      (max (c.j1 : Int) ((c.j2 : Int) - n)).toNat, c.j2⟩]
    else groupLoop nn n rest (group ++ [c])

/-- `get_grouped_opcodes(n)`: empty opcode lists are replaced by a
1-element dummy `equal`, then both fixups, then the chunking loop. -/
def getGroupedOpcodes (a b : List HVal) (n : Int) : List (List Opcode) :=
  let codes0 := getOpcodes a b
  let codes1 := if codes0 = [] then [⟨.equal, 0, 1, 0, 1⟩] else codes0
  groupLoop (n + n) n (fixupLast n (fixupHead n codes1)) []

/-- The abstract environment: `hashF` models Python's opaque per-process
`hash` (only consulted by the mapping sort key for keys that are neither
text nor numbers), `fenv` gives the behaviour of each opaque callable
(`.ok v` models a returned value, `.error e` a raised exception
object). -/
structure Ctx where
  hashF : Val → Int
  fenv : Nat → Val → Except Val Val

/-- Calling a value.  Call sites in the module always guard with
`callable(...)`, so the non-callable fallback is unreachable. -/
def callV (ctx : Ctx) (f arg : Val) : Except Val Val :=
  match f with
  | .funcV i => ctx.fenv i arg
  | _ => .error (.excV 0 "object is not callable")

/-- `compares_with_func(a, b) = callable(a) and a(b)` (truthiness of the
returned value); an exception raised by the callable propagates. -/
def comparesWithFunc (ctx : Ctx) (a b : Val) : Except PyErr Bool :=
  if pyCallable a then
    match callV ctx a b with
    | .ok r => .ok (pyTruthy r)
    | .error e => .error (.userExc e)
  else .ok false

inductive ChangeKind where
  | delete | insert | equal
deriving DecidableEq, Repr

mutual

/-- `DataDiff`: element type, the rendering delimiters
(`type_start_str` / `type_end_str`), the two file labels, and the ordered
entry list `diffs`. -/
inductive DataDiff where
  | mk (datatype : PyType) (typeStart typeEnd fromfile tofile : String)
       (diffs : List DiffEntry)

/-- One `(change, items)` pair of `DataDiff.diffs`.  The `'datadiff'`
tag can carry a `DataDiff` (from `diff_seq`), a `dictitem` wrapper (from
`diff_dict`) or a plain string (a nested multi-line text diff). -/
inductive DiffEntry where
  | contextE (a1 a2 b1 b2 : Nat)
  | contextEndContainer
  | nestedTree (d : DataDiff)
  | nestedItem (it : DictItem)
  | nestedStr (s : String)
  | changeE (kind : ChangeKind) (items : ChangeItems)

/-- The `dictitem` rendering wrapper: a key paired with a raw value, a
nested tree or a nested textual diff, plus the `depth` attribute (only
ever assigned for nested items; raw items keep the placeholder 0). -/
inductive DictItem where
  | mk (key : Val) (val : DictItemVal) (depth : Nat)

inductive DictItemVal where
  | rawD (v : Val)
  | treeD (d : DataDiff)
  | txtD (s : String)

/-- The `items` payload of a change run: a list of plain values
(sequence differ), a list of `dictitem`s (mapping differ), or a Python
set object (set differ), kept in its per-run iteration order. -/
inductive ChangeItems where
  | vals (l : List Val)
  | ditems (l : List DictItem)
  | pysetI (l : List Val)

end

def DataDiff.diffs : DataDiff → List DiffEntry
  | ⟨_, _, _, _, _, ds⟩ => ds

def DataDiff.datatype : DataDiff → PyType
  | ⟨ty, _, _, _, _, _⟩ => ty

def DictItem.key : DictItem → Val
  | ⟨k, _, _⟩ => k

def DictItem.val : DictItem → DictItemVal
  | ⟨_, v, _⟩ => v

def DictItem.depth : DictItem → Nat
  | ⟨_, _, d⟩ => d

/-- The first component of the `(change, items)` tuple. -/
def entryTag : DiffEntry → String
  | .contextE _ _ _ _ => "context"
  | .contextEndContainer => "context_end_container"
  | .nestedTree _ => "datadiff"
  | .nestedItem _ => "datadiff"
  | .nestedStr _ => "datadiff"
  | .changeE .delete _ => "delete"
  | .changeE .insert _ => "insert"
  | .changeE .equal _ => "equal"

/-- `DataDiff.__bool__`: true iff some entry's tag is not one of
`equal`, `context_end_container`, `context`. -/
def pyBoolD (d : DataDiff) : Bool :=
  d.diffs.any fun e =>
    !(entryTag e == "equal" || entryTag e == "context_end_container" || entryTag e == "context")

/-- `diff()` returns a `DataDiff` for containers but a plain string for
multi-line text input. -/
inductive DiffResult where
  | tree (d : DataDiff)
  | text (s : String)

/-- Truthiness of a `diff()` result: `DataDiff.__bool__` for trees,
non-emptiness for strings. -/
def pyBoolR : DiffResult → Bool
  | .tree d => pyBoolD d
  | .text s => s != ""

/-- Python `repr` of a string: the quote character is `'` unless the text
contains `'` but no `"`; backslash, the quote, and the common control
characters are escaped. -/
def pyReprStrChar (quote c : Char) : String :=
  if c = '\\' then "\\\\"
  else if c = quote then "\\" ++ String.mk [quote]
  else if c = '\n' then "\\n"
  else if c = '\r' then "\\r"
  else if c = '\t' then "\\t"
  else String.mk [c]

def pyReprStr (s : String) : String :=
  let q : Char := if s.contains '\'' ∧ ¬ s.contains '"' then '"' else '\''
  String.mk [q] ++ String.join (s.data.map (pyReprStrChar q)) ++ String.mk [q]

mutual

/-- Python `repr` of an embedded value (representative forms for the
opaque function / exception / object leaves). -/
def pyRepr : Val → String
  | .intV n => toString n
  | .strV s => pyReprStr s
  | .listV xs => "[" ++ pyReprList xs ++ "]"
  | .tupleV [x] => "(" ++ pyRepr x ++ ",)"
  | .tupleV xs => "(" ++ pyReprList xs ++ ")"
  | .dictV kvs => "\x7b" ++ pyReprItems kvs ++ "\x7d"
  | .setV [] => "set()"
  | .setV xs => "\x7b" ++ pyReprList xs ++ "\x7d"
  | .funcV i => "<function f" ++ toString i ++ ">"
  | .excV _ msg => "Exception(" ++ pyReprStr msg ++ ")"
  | .objV i _ => "<object o" ++ toString i ++ ">"
termination_by v => sizeOf v
decreasing_by all_goals (simp_wf; try omega)

def pyReprList : List Val → String
  | [] => ""
  | [x] => pyRepr x
  | x :: y :: xs => pyRepr x ++ ", " ++ pyReprList (y :: xs)
termination_by l => sizeOf l
decreasing_by all_goals (simp_wf; try omega)

def pyReprItems : List (Val × Val) → String
  | [] => ""
  | [(k, v)] => pyRepr k ++ ": " ++ pyRepr v
  | (k, v) :: p :: kvs => pyRepr k ++ ": " ++ pyRepr v ++ ", " ++ pyReprItems (p :: kvs)
termination_by l => sizeOf l
decreasing_by all_goals (simp_wf; try omega)

end

def indentSp (depth : Nat) : String := String.mk (List.replicate depth ' ')

mutual

/-- `DataDiff.stringify(depth, include_preamble)`: empty entry lists
render as the empty string; otherwise the optional `---`/`+++` preamble
(only at depth 0), the start delimiter, one block of lines per entry, and
the end delimiter, joined by newlines. -/
def stringifyD : DataDiff → Nat → Bool → String
  | ⟨_, typeStart, typeEnd, fromfile, tofile, diffs⟩, depth, includePreamble =>
    if diffs.isEmpty then ""
    else
      let pre := if depth = 0 ∧ includePreamble then ["--- " ++ fromfile, "+++ " ++ tofile] else []
      String.intercalate "\n"
        (pre ++ [indentSp depth ++ typeStart] ++ stringifyEntries diffs depth
             ++ [indentSp depth ++ typeEnd])
termination_by d _ _ => sizeOf d
decreasing_by all_goals (simp_wf; try omega)

def stringifyEntries : List DiffEntry → Nat → List String
  | [], _ => []
  | e :: es, depth => stringifyEntry e depth ++ stringifyEntries es depth
termination_by es _ => sizeOf es
decreasing_by all_goals (simp_wf; try omega)

/-- Lines of one entry: `@@ -a,b +c,d @@` context markers (the second
number omitted when equal), `@@  @@` end markers, recursively rendered
nested trees (the `dictitem` and plain-string payloads take the
`AttributeError` fallback, a space plus their `repr`), and
`-`/`+`/` `-prefixed change items, each line comma-terminated. -/
def stringifyEntry : DiffEntry → Nat → List String
  | .contextE a1 a2 b1 b2, depth =>
    let ca := toString a1 ++ (if a1 ≠ a2 then "," ++ toString a2 else "")
    let cb := toString b1 ++ (if b1 ≠ b2 then "," ++ toString b2 else "")
    [indentSp depth ++ "@@ -" ++ ca ++ " +" ++ cb ++ " @@"]
  | .contextEndContainer, depth => [indentSp depth ++ "@@  @@"]
  | .nestedTree d, depth => [indentSp depth ++ stringifyD d (depth + 1) true ++ ","]
  | .nestedItem it, depth => [indentSp depth ++ " " ++ reprDictItem it ++ ","]
  | .nestedStr s, depth => [indentSp depth ++ " " ++ pyReprStr s ++ ","]
  | .changeE kind items, depth =>
    let ch := match kind with | .delete => "-" | .insert => "+" | .equal => " "
    (itemsList items).map fun itm => indentSp depth ++ ch ++ itm ++ ","
termination_by e _ => sizeOf e
decreasing_by all_goals (simp_wf; try omega)

def itemsList : ChangeItems → List String
  | .vals l => l.map pyRepr
  | .ditems l => reprDictItems l
  | .pysetI l => l.map pyRepr
termination_by items => sizeOf items
decreasing_by all_goals (simp_wf; try omega)

def reprDictItems : List DictItem → List String
  | [] => []
  | it :: its => reprDictItem it :: reprDictItems its
termination_by l => sizeOf l
decreasing_by all_goals (simp_wf; try omega)

/-- `dictitem.__repr__`: `key: value` with the nested tree rendered at
the recorded depth, preamble-free and stripped. -/
def reprDictItem : DictItem → String
  | ⟨key, .rawD v, _⟩ => pyRepr key ++ ": " ++ pyRepr v
  | ⟨key, .txtD s, _⟩ => pyRepr key ++ ": " ++ pyReprStr s
  | ⟨key, .treeD d, dep⟩ => pyRepr key ++ ": " ++ (stringifyD d dep false).trim
termination_by it => sizeOf it
decreasing_by all_goals (simp_wf; try omega)

end

/-- Python `v[0]`, as performed by the mapping sort key on the payload's
first component. -/
def pySubscriptZero : Val → Except PyErr Val
  | .strV s =>
    match s.data with
    | [] => .error .indexError
    | c :: _ => .ok (.strV (String.mk [c]))
  | .listV xs => match xs.head? with | some x => .ok x | none => .error .indexError
  | .tupleV xs => match xs.head? with | some x => .ok x | none => .error .indexError
  | .dictV kvs =>
    match pyLookupOpt kvs (.intV 0) with | some v => .ok v | none => .error .keyError
  | _ => .error (.typeError "object is not subscriptable")

/-- Sort keys produced by `diffitem_dictitem_sort_key`: a text key sorts
as itself, a numeric key as itself, anything else as `abs(hash(key))`
(also a number, hence mutually comparable with numeric keys). -/
inductive SortKey where
  | strK (s : String)
  | intK (n : Int)
deriving DecidableEq, Repr

def sortKeyOfVal (ctx : Ctx) (k : Val) : SortKey :=
  match k with
  | .strV s => .strK s
  | .intV n => .intK n
  | _ => .intK ((ctx.hashF k).natAbs : Int)

/-- `diffitem_dictitem_sort_key(diffitem)` with `diffitem = (change,
payload)`: only a payload that *is* a `DataDiff` gets rank 0 (which never
happens for the entries `diff_dict` builds — its nested payloads are
`dictitem` wrappers); every other payload is subscripted twice,
`payload[0][0]`, which for a change run extracts the mapping key but for
a nested `dictitem` subscripts the key itself (`TypeError` for an `int`
key), and fails outright for context payloads and set payloads. -/
def diffitemDictitemSortKey (ctx : Ctx) : DiffEntry → Except PyErr SortKey
  | .nestedTree _ => .ok (.intK 0)
  | .nestedItem it => do .ok (sortKeyOfVal ctx (← pySubscriptZero it.key))
  | .nestedStr s =>
    match s.data with
    | [] => .error .indexError
    | c :: _ => .ok (.strK (String.mk [c]))
  | .contextE _ _ _ _ => .error (.typeError "int object is not subscriptable")
  | .contextEndContainer => .error .indexError
  | .changeE _ items =>
    match items with
    | .vals [] => .error .indexError
    | .vals (v :: _) => do .ok (sortKeyOfVal ctx (← pySubscriptZero v))
    | .ditems [] => .error .indexError
    | .ditems (it :: _) => .ok (sortKeyOfVal ctx it.key)
    | .pysetI _ => .error (.typeError "set object is not subscriptable")

/-- are the computed sort keys mutually comparable (all text or all
numeric)?  CPython's sort compares a mixed-kind key list at least once
across kinds, raising `TypeError`; a homogeneous list sorts fine. -/
def sortKeysHomogeneous : List SortKey → Bool
  | [] => true
  | .strK _ :: rest => rest.all fun k => match k with | .strK _ => true | .intK _ => false
  | .intK _ :: rest => rest.all fun k => match k with | .strK _ => false | .intK _ => true

/-- lexicographic (code-point) comparison of Python strings. -/
def charListLe : List Char → List Char → Bool
  | [], _ => true
  | _ :: _, [] => false
  | c :: cs, d :: ds => if c = d then charListLe cs ds else decide (c < d)

def sortKeyLe : SortKey → SortKey → Bool
  | .strK s, .strK t => charListLe s.data t.data
  | .intK m, .intK n => decide (m ≤ n)
  | _, _ => false

/-- stable insertion (after every earlier element with a `≤` key): the
unique stable-sort result, which is what CPython's stable `list.sort`
produces on a homogeneous key list. -/
def stableInsert (x : SortKey × DiffEntry) :
    List (SortKey × DiffEntry) → List (SortKey × DiffEntry)
  | [] => [x]
  | y :: ys => if sortKeyLe y.1 x.1 then y :: stableInsert x ys else x :: y :: ys

def stableSortPairs (l : List (SortKey × DiffEntry)) : List (SortKey × DiffEntry) :=
  l.foldl (fun acc x => stableInsert x acc) []

/-- `ddiff.diffs.sort(key=diffitem_dictitem_sort_key)`: CPython computes
every entry's key first (a failing key computation raises even for a
1-element list), then stable-sorts, raising `TypeError` on a mixed
text/numeric key list. -/
def sortDiffs (ctx : Ctx) (entries : List DiffEntry) : Except PyErr (List DiffEntry) := do
  let keys ← entries.mapM (diffitemDictitemSortKey ctx)
  if sortKeysHomogeneous keys then
    .ok ((stableSortPairs (keys.zip entries)).map Prod.snd)
  else
    .error (.typeError "unorderable key types")

/-- `list(...)[:context]` where `context` may in principle be negative
(Python slicing counts from the end then). -/
def pySliceTo (l : List Val) (c : Int) : List Val :=
  if c < 0 then l.take (l.length - c.natAbs) else l.take c.toNat

/-- `diff_set`: unconditional `delete` and `insert` runs carrying the two
set differences (as set objects), an `equal` run carrying up to `context`
elements of the intersection (as a list), and a `ContextEndContainer`
exactly when the intersection is longer than `context`. -/
def diffSet (a b : List Val) (ty : PyType) (context : Int) (fromfile tofile : String) :
    DataDiff :=
  let dels := a.filter fun x => !(pyMem x b)
  let inss := b.filter fun x => !(pyMem x a)
  let equal := a.filter fun x => pyMem x b
  let diffs := [DiffEntry.changeE .delete (.pysetI dels),
                DiffEntry.changeE .insert (.pysetI inss),
                DiffEntry.changeE .equal (.vals (pySliceTo equal context))]
      ++ (if context < (equal.length : Int) then [DiffEntry.contextEndContainer] else [])
  ⟨ty, pyTypeName ty ++ "([", "])", fromfile, tofile, diffs⟩

/-- The per-key body of `diff_dict`'s main loop, returning this key's
entries plus the `add_equal` flag. -/
def diffDictStep (ctx : Ctx) (recur : Val → Val → Except PyErr DiffResult)
    (a b : List (Val × Val)) (cwf : Bool) (depth : Nat) (key : Val) :
    Except PyErr (List DiffEntry × Bool) :=
  match pyLookupOpt b key with
  | none => .ok ([.changeE .delete (.ditems [⟨key, .rawD (pyLookup a key), 0⟩])], false)
  | some bval =>
    let aval := pyLookup a key
    if pyEq aval bval then .ok ([], true)
    else if cwf ∧ pyCallable aval then
      match callV ctx aval bval with
      | .ok r =>
        if pyTruthy r then .ok ([], true)
        else .ok ([.changeE .delete (.ditems [⟨key, .rawD aval, 0⟩]),
                   .changeE .insert (.ditems [⟨key, .rawD bval, 0⟩])], false)
      | .error e =>
        .ok ([.changeE .delete (.ditems [⟨key, .rawD e, 0⟩]),
              .changeE .insert (.ditems [⟨key, .rawD bval, 0⟩])], false)
    else
      match recur aval bval with
      | .ok r =>
        if pyBoolR r then
          let nv : DictItemVal := match r with | .tree d => .treeD d | .text s => .txtD s
          .ok ([.nestedItem ⟨key, nv, depth + 1⟩], false)
        else .ok ([], true)
      | .error e =>
        if isDiffTypeError e then
          .ok ([.changeE .delete (.ditems [⟨key, .rawD aval, 0⟩]),
                .changeE .insert (.ditems [⟨key, .rawD bval, 0⟩])], false)
        else .error e

/-- `diff_dict`'s main loop over the keys of `a`: branch entries, then the
context-budgeted equal entry (`if context:` — any nonzero remaining
budget, including a negative one, emits; the budget is decremented for
every equal key). -/
def diffDictLoop (ctx : Ctx) (recur : Val → Val → Except PyErr DiffResult)
    (a b : List (Val × Val)) (cwf : Bool) (depth : Nat) :
    List Val → Int → Except PyErr (List DiffEntry × Int)
  | [], context => .ok ([], context)
  | key :: rest, context => do
    let (es, addEqual) ← diffDictStep ctx recur a b cwf depth key
    let eqEs : List DiffEntry :=
      if addEqual ∧ context ≠ 0 then
        [.changeE .equal (.ditems [⟨key, .rawD (pyLookup b key), 0⟩])]
      else []
    let ctx2 := if addEqual then context - 1 else context
    let (restEs, ctxF) ← diffDictLoop ctx recur a b cwf depth rest ctx2
    .ok (es ++ eqEs ++ restEs, ctxF)

/-- `diff_dict`: the key loop, the `insert` entries for keys only in `b`,
the deterministic sort, and a trailing `ContextEndContainer` when the
equal-key budget went negative. -/
def diffDict (ctx : Ctx) (recur : Val → Val → Except PyErr DiffResult)
    (a b : List (Val × Val)) (context : Int) (depth : Nat)
    (fromfile tofile : String) (cwf : Bool) : Except PyErr DataDiff := do
  let (entries, ctxAfter) ← diffDictLoop ctx recur a b cwf depth (a.map Prod.fst) context
  let inserts := (b.map Prod.fst).filterMap fun k =>
    if pyKeyIn a k then none
    else some (DiffEntry.changeE .insert (.ditems [⟨k, .rawD (pyLookup b k), 0⟩]))
  let sorted ← sortDiffs ctx (entries ++ inserts)
  let final := sorted ++ (if ctxAfter < 0 then [DiffEntry.contextEndContainer] else [])
  .ok ⟨.dictT, "\x7b", "\x7d", fromfile, tofile, final⟩

/-- the duck-type check of `diff_seq`: `hasattr(a, '__iter__') or
hasattr(a, '__getitem__')` over the embedded universe. -/
def hasIterOrGetitem : Val → Bool
  | .intV _ => false
  | .funcV _ => false
  | .excV _ _ => false
  | .objV _ _ => false
  | _ => true

/-- iteration over a value, for building the element lists of
`diff_seq` (only lists and tuples reach it from the dispatcher; the
other iterables are included for totality of the duck-typed model). -/
def seqElems : Val → List Val
  | .listV xs => xs
  | .tupleV xs => xs
  | .setV xs => xs
  | .dictV kvs => kvs.map Prod.fst
  | .strV s => s.data.map fun c => .strV (String.mk [c])
  | _ => []

/-- The accumulating state while building one context chunk of
`diff_seq`: the entries appended so far, the pending
`consecutive_deletes` / `consecutive_inserts` buffers of the current
`replace` opcode, and the `realy_diffs` flag. -/
structure ChunkState where
  entries : List DiffEntry
  dels : List Val
  inss : List Val
  realy : Bool

def sliceL (l : List Val) (i1 i2 : Nat) : List Val := (l.drop i1).take (i2 - i1)

/-- The `replace` pairing loop of `diff_seq`: each zipped pair either
satisfies `compares_with_func` (skipped, state untouched), recursively
diffs empty (skipped), nests — flushing the pending buffers first, as
`delete_multi` / `insert_multi` append an entry even for an empty buffer
— or, on a `DiffTypeError` from the recursive diff, is appended to the
buffers; the last two set `realy_diffs`.  Only `DiffTypeError` (and its
subclass) is caught: any other failure propagates. -/
def processPairs (ctx : Ctx) (recur : Val → Val → Except PyErr DiffResult) :
    List (Val × Val) → ChunkState → Except PyErr ChunkState
  | [], st => .ok st
  | (x, y) :: rest, st =>
    match comparesWithFunc ctx x y with
    | .error e => .error e
    | .ok true => processPairs ctx recur rest st
    | .ok false =>
      match recur x y with
      | .ok r =>
        if pyBoolR r then
          let nst : DiffEntry := match r with
            | .tree d => .nestedTree d
            | .text s => .nestedStr s
          processPairs ctx recur rest
            ⟨st.entries ++ [.changeE .delete (.vals st.dels),
                            .changeE .insert (.vals st.inss), nst], [], [], true⟩
        else processPairs ctx recur rest st
      | .error e =>
        if isDiffTypeError e then
          processPairs ctx recur rest ⟨st.entries, st.dels ++ [x], st.inss ++ [y], true⟩
        else .error e

/-- The whole `replace` branch: zip the two slices (truncating to the
shorter), process the pairs, then flush the buffers and append the
longer side's tail as a pure delete (`a` longer) or insert (`b`
longer). -/
def replaceBranch (ctx : Ctx) (recur : Val → Val → Except PyErr DiffResult)
    (ea eb : List Val) (i1 i2 j1 j2 : Nat) (st : ChunkState) :
    Except PyErr ChunkState := do
  let asl := sliceL ea i1 i2
  let bsl := sliceL eb j1 j2
  let st2 ← processPairs ctx recur (asl.zip bsl) ⟨st.entries, [], [], st.realy⟩
  let e1 := [DiffEntry.changeE .delete (.vals st2.dels)]
  let e2 := if j2 - j1 < i2 - i1 then
      [DiffEntry.changeE .delete (.vals (sliceL ea (i1 + (j2 - j1)) i2))] else []
  let e3 := [DiffEntry.changeE .insert (.vals st2.inss)]
  let e4 := if i2 - i1 < j2 - j1 then
      [DiffEntry.changeE .insert (.vals (sliceL eb (j1 + (i2 - i1)) j2))] else []
  .ok ⟨st2.entries ++ e1 ++ e2 ++ e3 ++ e4, [], [], st2.realy⟩

/-- One opcode of a chunk: `replace` runs the pairing branch; `insert`
takes its items from `b`, the others from `a`; every non-`equal` opcode
sets `realy_diffs`. -/
def processOpcode (ctx : Ctx) (recur : Val → Val → Except PyErr DiffResult)
    (ea eb : List Val) (st : ChunkState) (c : Opcode) : Except PyErr ChunkState :=
  match c.tag with
  | .replace => replaceBranch ctx recur ea eb c.i1 c.i2 c.j1 c.j2 st
  | .insert =>
    .ok ⟨st.entries ++ [.changeE .insert (.vals (sliceL eb c.j1 c.j2))], st.dels, st.inss, true⟩
  | .delete =>
    .ok ⟨st.entries ++ [.changeE .delete (.vals (sliceL ea c.i1 c.i2))], st.dels, st.inss, true⟩
  | .equal =>
    .ok ⟨st.entries ++ [.changeE .equal (.vals (sliceL ea c.i1 c.i2))], st.dels, st.inss, st.realy⟩

/-- One grouped-opcode chunk of `diff_seq`: the `@@ ... @@` context
header built from the first and last opcodes (1-based, clamped at 0),
the opcode loop, and — using the loop-variable leak `i2` of the *last*
opcode — a `ContextEndContainer` whenever that end index is short of
`len(a)`; the chunk's entries are kept only when `realy_diffs` is set.
Returns (entries, realy, last i2). -/
def processChunk (ctx : Ctx) (recur : Val → Val → Except PyErr DiffResult) (cwf : Bool)
    (ea eb : List Val) (chunk : List Opcode) :
    Except PyErr (List DiffEntry × Bool × Nat) :=
  match chunk.head?, chunk.getLast? with
  | some c0, some cl => do
    let header := DiffEntry.contextE (c0.i1 - 1) (cl.i2 - 1) (c0.j1 - 1) (cl.j2 - 1)
    let stF ← chunk.foldlM (processOpcode ctx recur ea eb) ⟨[header], [], [], !cwf⟩
    let lastI2 := (chunk.getLastD cl).i2
    let withEnd := stF.entries ++
      (if lastI2 < ea.length then [DiffEntry.contextEndContainer] else [])
    .ok (withEnd, stF.realy, lastI2)
  | _, _ => .ok ([], !cwf, 0)

/-- `diff_seq`: the duck-type check, canonical keys for every element
(`NotHashable` propagates), delimiters by concrete kind (`tuple` by `a`,
`list` by `b`, else a generic `TypeName([`/`])` wrapper), then the
grouped-opcode chunks, each merged only when it holds a real change. -/
def diffSeq (ctx : Ctx) (recur : Val → Val → Except PyErr DiffResult)
    (a b : Val) (context : Int) (fromfile tofile : String) (cwf : Bool) :
    Except PyErr DataDiff := do
  if hasIterOrGetitem a = false then .error .notSequence
  else
    let ea := seqElems a
    let eb := seqElems b
    let ha ← match hashableList ea with
      | some ha => pure ha
      | none => .error PyErr.notHashable
    let hb ← match hashableList eb with
      | some hb => pure hb
      | none => .error PyErr.notHashable
    let td : PyType × String × String :=
      if pyType a = .tupleT then (.tupleT, "(", ")")
      else if pyType b = .listT then (.listT, "[", "]")
      else (pyType a, pyTypeName (pyType a) ++ "([", "])")
    let groups := getGroupedOpcodes ha hb context
    let diffs ← groups.foldlM (fun acc chunk => do
        let (es, realy, _) ← processChunk ctx recur cwf ea eb chunk
        pure (acc ++ (if realy then es else []))) ([] : List DiffEntry)
    .ok ⟨td.1, td.2.1, td.2.2, fromfile, tofile, diffs⟩

/-- `try_diff_seq`: re-raises `NotHashable`; the bare `except:` turns
every other failure into `NotSequence`. -/
def tryDiffSeq (ctx : Ctx) (recur : Val → Val → Except PyErr DiffResult)
    (a b : Val) (context : Int) (fromfile tofile : String) (cwf : Bool) :
    Except PyErr DataDiff :=
  match diffSeq ctx recur a b context fromfile tofile cwf with
  | .ok d => .ok d
  | .error .notHashable => .error .notHashable
  | .error _ => .error .notSequence

/-- Python `'\n' in s`, over the character list. -/
def hasNewline (s : String) : Bool := s.data.contains '\n'

def splitLinesAux (cur : List Char) : List Char → List (List Char)
  | [] => [cur.reverse]
  | c :: cs => if c = '\n' then cur.reverse :: splitLinesAux [] cs else splitLinesAux (c :: cur) cs

/-- Python `s.split('\n')`. -/
def splitNl (s : String) : List String := (splitLinesAux [] s.data).map fun l => String.mk l

/-- `difflib._format_range_unified`. -/
def formatRangeUnified (start stop : Nat) : String :=
  let beginning := start + 1
  let length := stop - start
  if length = 1 then toString beginning
  else toString (if length = 0 then beginning - 1 else beginning) ++ "," ++ toString length

def sliceS (l : List String) (i1 i2 : Nat) : List String := (l.drop i1).take (i2 - i1)

/-- the item lines of one group of `difflib.unified_diff`. -/
def unifiedGroupLines (la lb : List String) (group : List Opcode) : List String :=
  (group.map fun c =>
    match c.tag with
    | .equal => (sliceS la c.i1 c.i2).map (fun line => " " ++ line)
    | .replace => (sliceS la c.i1 c.i2).map (fun line => "-" ++ line)
        ++ (sliceS lb c.j1 c.j2).map (fun line => "+" ++ line)
    | .delete => (sliceS la c.i1 c.i2).map (fun line => "-" ++ line)
    | .insert => (sliceS lb c.j1 c.j2).map (fun line => "+" ++ line)).flatten

/-- `difflib.unified_diff(a, b, fromfile, tofile, '', '', n, lineterm='')`
as a list of output lines: nothing at all when there are no grouped
opcodes, else the `---`/`+++` header once, then per group an `@@` range
line and the prefixed item lines. -/
def unifiedDiff (la lb : List String) (fromfile tofile : String) (n : Int) : List String :=
  let groups := getGroupedOpcodes (la.map .strH) (lb.map .strH) n
  let body := groups.map fun g =>
    let c0 := g.headD ⟨.equal, 0, 0, 0, 0⟩
    let cl := g.getLastD ⟨.equal, 0, 0, 0, 0⟩
    ("@@ -" ++ formatRangeUnified c0.i1 cl.i2 ++ " +" ++ formatRangeUnified c0.j1 cl.j2 ++ " @@")
      :: unifiedGroupLines la lb g
  match body with
  | [] => []
  | _ => ("--- " ++ fromfile) :: ("+++ " ++ tofile) :: body.flatten

/-- `unified_diff_strings`: split on newlines, diff, join with
newlines. -/
def unifiedDiffStrings (a b fromfile tofile : String) (context : Int) : String :=
  String.intercalate "\n" (unifiedDiff (splitNl a) (splitNl b) fromfile tofile context)

def dictOf : Val → List (Val × Val)
  | .dictV kvs => kvs
  | _ => []

def setItemsOf : Val → List Val
  | .setV xs => xs
  | _ => []

/-- `hasattr(a, 'intersection') and hasattr(a, 'difference')`. -/
def hasSetOps : Val → Bool
  | .setV _ => true
  | _ => false

/-- the `DiffTypeError` message of the dispatcher. -/
def typesDifferMsg (fromfile tofile : String) (a b : Val) : String :=
  "Types differ: " ++ fromfile ++ "=" ++ tofile
    ++ " <class '" ++ pyTypeName (pyType a) ++ "'>=<class '" ++ pyTypeName (pyType b) ++ "'>"
    ++ "  Values of a and b are: " ++ pyRepr a ++ ", " ++ pyRepr b

/-- `diff(a, b, context=3, depth=0, fromfile='a', tofile='b',
compare_with_func=False)`, the Dispatcher.  In source order: the
two-strings special case (multi-line text goes to the textual unified
diff, single-line text refuses with `DiffNotImplementedForType(str)`),
the type-mismatch branch (comparison-callable fallback, else
`DiffTypeError`), dicts, set-likes, and finally `try_diff_seq` with
`NotSequence` converted to `DiffNotImplementedForType(type(a))`.
Recursive calls (`diff_dict` values, `diff_seq` replace pairs) use the
default labels `'a'`/`'b'` and `depth+1`, and burn one unit of fuel. -/
def diffV (ctx : Ctx) :
    Nat → Val → Val → Int → Nat → String → String → Bool → Except PyErr DiffResult
  | 0, _, _, _, _, _, _, _ => .error .recursionLimit
  | fuel + 1, a, b, context, depth, fromfile, tofile, cwf =>
    match a, b with
    | .strV sa, .strV sb =>
      if hasNewline sa ∨ hasNewline sb then
        .ok (.text (unifiedDiffStrings sa sb fromfile tofile context))
      else .error (.diffNotImplementedForType .strT)
    | _, _ =>
      let recur := fun x y => diffV ctx fuel x y context (depth + 1) "a" "b" cwf
      if pyType a ≠ pyType b then
        if cwf ∧ pyCallable a then
          let base : List DiffEntry → DataDiff := fun es =>
            ⟨pyType b, pyTypeName (pyType b) ++ "([", "])", fromfile, tofile, es⟩
          match callV ctx a b with
          | .ok r =>
            if pyTruthy r then .ok (.tree (base [.changeE .equal (.vals [b])]))
            else .ok (.tree (base [.changeE .delete (.vals [a]), .changeE .insert (.vals [b])]))
          | .error e =>
            .ok (.tree (base [.changeE .delete (.vals [e]), .changeE .insert (.vals [b])]))
        else .error (.diffTypeError (typesDifferMsg fromfile tofile a b))
      else if pyType a = .dictT then
        match diffDict ctx recur (dictOf a) (dictOf b) context depth fromfile tofile cwf with
        | .ok d => .ok (.tree d)
        | .error e => .error e
      else if hasSetOps a then
        .ok (.tree (diffSet (setItemsOf a) (setItemsOf b) (pyType a) context fromfile tofile))
      else
        match tryDiffSeq ctx recur a b context fromfile tofile cwf with
        | .ok d => .ok (.tree d)
        | .error .notSequence => .error (.diffNotImplementedForType (pyType a))
        | .error e => .error e

/-!  Concrete environments and helpers used by the claim theorems. -/

/-- a trivial environment: constant hash, every callable raises. -/
def ctxZero : Ctx := ⟨fun _ => 0, fun _ _ => .error (.excV 99 "boom")⟩

/-- an environment for exercising the comparison-callable paths:
callable 0 accepts everything, callable 1 rejects everything, callable 2
raises. -/
def ctxCalls : Ctx :=
  ⟨fun _ => 0, fun i _ =>
    match i with
    | 0 => .ok (.intV 1)
    | 1 => .ok (.intV 0)
    | _ => .error (.excV 7 "nope")⟩

def isEqualEntry (e : DiffEntry) : Bool := entryTag e == "equal"

def isEndEntry (e : DiffEntry) : Bool := entryTag e == "context_end_container"

/-- number of `equal` change runs in a diff result (0 for errors/text). -/
def countEqualEntries : Except PyErr DiffResult → Nat
  | .ok (.tree d) => (d.diffs.filter isEqualEntry).length
  | _ => 0

/-- number of `ContextEndContainer` markers in a diff result. -/
def countEndMarkers : Except PyErr DiffResult → Nat
  | .ok (.tree d) => (d.diffs.filter isEndEntry).length
  | _ => 0

/-- C10: `stringify` of a Diff Tree with an empty entry list returns the
empty string at every depth and with or without the preamble requested:
the `if not self.diffs: return ''` early exit precedes both the preamble
and the delimiters. -/
theorem c10Claim (d : DataDiff) (depth : Nat) (includePreamble : Bool)
    (h : d.diffs = []) : stringifyD d depth includePreamble = "" := by
  rcases d with ⟨ty, ts, te, ff, tf, ds⟩
  simp only [DataDiff.diffs] at h
  subst h
  simp [stringifyD]

theorem c10ClaimWitness :
    (⟨.listT, "[", "]", "a", "b", []⟩ : DataDiff).diffs = [] ∧
      stringifyD ⟨.listT, "[", "]", "a", "b", []⟩ 0 true = "" :=
  ⟨rfl, c10Claim ⟨.listT, "[", "]", "a", "b", []⟩ 0 true rfl⟩

/-- C8: for every pair of single-line strings the dispatcher raises
`DiffNotImplementedForType(str)` before any other branch can run: no
character-by-character diff is attempted. -/
theorem c8Claim (ctx : Ctx) (fuel : Nat) (s t : String) (c : Int) (depth : Nat)
    (ff tf : String) (cwf : Bool)
    (hs : hasNewline s = false) (ht : hasNewline t = false) :
    diffV ctx (fuel + 1) (.strV s) (.strV t) c depth ff tf cwf =
      .error (.diffNotImplementedForType .strT) := by
  simp [diffV, hs, ht]

theorem c8ClaimWitness :
    hasNewline "ab" = false ∧ hasNewline "cd" = false ∧
      diffV ctxZero 1 (.strV "ab") (.strV "cd") 3 0 "a" "b" false =
        .error (.diffNotImplementedForType .strT) :=
  ⟨by decide, by decide, c8Claim ctxZero 0 "ab" "cd" 3 0 "a" "b" false (by decide) (by decide)⟩

/-- an empty Diff Tree, and a tree whose only entry nests it. -/
def emptyTreeC4 : DataDiff := ⟨.listT, "[", "]", "a", "b", []⟩

def nestedEmptyTreeC4 : DataDiff := ⟨.listT, "[", "]", "a", "b", [.nestedTree emptyTreeC4]⟩

/-- C4, counterexample: a Diff Tree whose single entry is a `Nested`
entry with an *empty* embedded tree is nevertheless truthy — the claim's
qualifier "a Nested entry counts as non-empty *unless its embedded tree
is itself empty*" is false: `__bool__` looks only at the entry tag
(`'datadiff'`), never inside the nested tree. -/
theorem c4Counterexample :
    pyBoolD emptyTreeC4 = false ∧ pyBoolD nestedEmptyTreeC4 = true := by
  constructor <;> rfl

/-- C4, amended: a Diff Tree is semantically empty (its truthiness test
is false) iff every entry is an `equal` change run, a `Context` marker or
a `ContextEndContainer` marker; a `Nested` entry always counts as
non-empty, even when its embedded tree is empty. -/
theorem c4Claim (d : DataDiff) :
    pyBoolD d = false ↔
      ∀ e ∈ d.diffs, entryTag e = "equal" ∨ entryTag e = "context" ∨
        entryTag e = "context_end_container" := by
  unfold pyBoolD
  rw [List.any_eq_false]
  constructor
  · intro h e he
    have := h e he
    by_cases h1 : entryTag e = "equal"
    · exact Or.inl h1
    · by_cases h2 : entryTag e = "context"
      · exact Or.inr (Or.inl h2)
      · by_cases h3 : entryTag e = "context_end_container"
        · exact Or.inr (Or.inr h3)
        · simp [h1, h2, h3] at this
  · intro h e he
    rcases h e he with h1 | h1 | h1 <;> simp [h1]

/-- C3, the failing input: diffing `{1: [1]}` against `{1: [2]}` produces
a nested entry for key `1`; sorting then evaluates
`diffitem_dictitem_sort_key`, whose `type(payload) == DataDiff` guard
never fires for `diff_dict` entries (their nested payloads are `dictitem`
wrappers), so the key `1` itself is subscripted (`payload[0][0]`) and the
whole diff raises `TypeError` instead of sorting the nested entry
first. -/
theorem c3FailingInput :
    diffV ctxZero 10 (.dictV [(.intV 1, .listV [.intV 1])])
        (.dictV [(.intV 1, .listV [.intV 2])]) 3 0 "a" "b" false =
      .error (.typeError "object is not subscriptable") := by
  rfl

/-- C3, the same dead guard observed without a crash: with the string
keys `'bz'` (changed value, hence a nested entry) and `'aa'` (equal
value), the nested entry sorts by the first character `'b'` of its key —
not with rank 0 ahead of everything — so the `'aa'` equal entry comes
first.  Under the claim the nested entry would be the head of the entry
list. -/
theorem c3SortObserved :
    (match diffV ctxZero 10
        (.dictV [(.strV "bz", .listV [.intV 1]), (.strV "aa", .intV 2)])
        (.dictV [(.strV "bz", .listV [.intV 2]), (.strV "aa", .intV 2)]) 3 0 "a" "b" false with
     | .ok (.tree d) => d.diffs.map entryTag
     | _ => []) = ["equal", "datadiff"] := by
  rfl

/-- C9: when the two values have different variants, the dispatcher with
the comparison-callable option on and a callable left value builds a
single-entry tree: `equal(b)` when the call of `a` on `b` is truthy,
`delete(a)+insert(b)` when it is falsy, and `delete(e)+insert(b)` — the
raised exception object replacing `a` — when it raises; with the option
off or a non-callable left value it fails with `DiffTypeError` carrying
both types and values. -/
theorem c9Claim (ctx : Ctx) (fuel : Nat) (a b : Val) (c : Int) (depth : Nat)
    (ff tf : String) (cwf : Bool) (hty : pyType a ≠ pyType b) :
    diffV ctx (fuel + 1) a b c depth ff tf cwf =
      (if cwf ∧ pyCallable a then
        match callV ctx a b with
        | .ok r =>
          if pyTruthy r then
            .ok (.tree ⟨pyType b, pyTypeName (pyType b) ++ "([", "])", ff, tf,
              [.changeE .equal (.vals [b])]⟩)
          else
            .ok (.tree ⟨pyType b, pyTypeName (pyType b) ++ "([", "])", ff, tf,
              [.changeE .delete (.vals [a]), .changeE .insert (.vals [b])]⟩)
        | .error e =>
          .ok (.tree ⟨pyType b, pyTypeName (pyType b) ++ "([", "])", ff, tf,
            [.changeE .delete (.vals [e]), .changeE .insert (.vals [b])]⟩)
      else .error (.diffTypeError (typesDifferMsg ff tf a b))) := by
  cases a <;> cases b <;> first | exact absurd rfl hty | simp_all [diffV]

theorem c9ClaimWitness :
    pyType (Val.funcV 0) ≠ pyType (Val.intV 5) ∧
      diffV ctxCalls 1 (.funcV 0) (.intV 5) 3 0 "a" "b" true =
        .ok (.tree ⟨.intT, "int([", "])", "a", "b", [.changeE .equal (.vals [.intV 5])]⟩) := by
  refine ⟨by decide, ?_⟩
  rw [c9Claim ctxCalls 0 (.funcV 0) (.intV 5) 3 0 "a" "b" true (by decide)]
  rfl

/-- a list with an unhashable element has no canonical key list. -/
theorem hashableListNone (l : List Val) (x : Val) (hx : x ∈ l)
    (he : hashableV x = none) : hashableList l = none := by
  induction l with
  | nil => cases hx
  | cons y ys ih =>
    rcases List.mem_cons.mp hx with h | h
    · subst h
      simp [hashableList, he]
    · cases hy : hashableV y <;> simp [hashableList, hy, ih h]

/-- C5: `NotHashable` propagation.  (1) Diffing two lists one of whose
elements has no canonical key fails with `NotHashable` — `try_diff_seq`
re-raises it (instead of converting to `NotSequence`) and the dispatcher
passes it to the caller unchanged. (2) The sequence replace-pairing site
does not catch `NotHashable` from a recursive diff: the whole pairing
fails with it.  (3) It does catch `DiffTypeError` and its subclass,
degrading the pair into the delete/insert buffers.  (4) The mapping
value-comparison site does not catch `NotHashable` either — the loop step
fails with it — while (5) it degrades a `DiffTypeError` to a
delete+insert entry pair. -/
theorem c5Claim :
    (∀ (ctx : Ctx) (fuel : Nat) (la lb : List Val) (c : Int) (depth : Nat)
       (ff tf : String) (cwf : Bool),
      ((∃ x ∈ la, hashableV x = none) ∨ (∃ x ∈ lb, hashableV x = none)) →
      diffV ctx (fuel + 1) (.listV la) (.listV lb) c depth ff tf cwf =
        .error .notHashable) ∧
    (∀ (ctx : Ctx) (recur : Val → Val → Except PyErr DiffResult) (x y : Val)
       (rest : List (Val × Val)) (st : ChunkState),
      comparesWithFunc ctx x y = .ok false →
      recur x y = .error .notHashable →
      processPairs ctx recur ((x, y) :: rest) st = .error .notHashable) ∧
    (∀ (ctx : Ctx) (recur : Val → Val → Except PyErr DiffResult) (x y : Val)
       (rest : List (Val × Val)) (st : ChunkState) (e : PyErr),
      comparesWithFunc ctx x y = .ok false →
      recur x y = .error e → isDiffTypeError e = true →
      processPairs ctx recur ((x, y) :: rest) st =
        processPairs ctx recur rest ⟨st.entries, st.dels ++ [x], st.inss ++ [y], true⟩) ∧
    (∀ (ctx : Ctx) (recur : Val → Val → Except PyErr DiffResult)
       (a b : List (Val × Val)) (cwf : Bool) (depth : Nat) (key bval : Val)
       (rest : List Val) (c : Int),
      pyLookupOpt b key = some bval →
      pyEq (pyLookup a key) bval = false →
      ¬(cwf = true ∧ pyCallable (pyLookup a key) = true) →
      recur (pyLookup a key) bval = .error .notHashable →
      diffDictLoop ctx recur a b cwf depth (key :: rest) c = .error .notHashable) ∧
    (∀ (ctx : Ctx) (recur : Val → Val → Except PyErr DiffResult)
       (a b : List (Val × Val)) (cwf : Bool) (depth : Nat) (key bval : Val) (e : PyErr),
      pyLookupOpt b key = some bval →
      pyEq (pyLookup a key) bval = false →
      ¬(cwf = true ∧ pyCallable (pyLookup a key) = true) →
      recur (pyLookup a key) bval = .error e → isDiffTypeError e = true →
      diffDictStep ctx recur a b cwf depth key =
        .ok ([.changeE .delete (.ditems [⟨key, .rawD (pyLookup a key), 0⟩]),
              .changeE .insert (.ditems [⟨key, .rawD bval, 0⟩])], false)) := by
  refine ⟨?_, ?_, ?_, ?_, ?_⟩
  · intro ctx fuel la lb c depth ff tf cwf hbad
    have hseq : diffSeq ctx (fun x y => diffV ctx fuel x y c (depth + 1) "a" "b" cwf)
        (.listV la) (.listV lb) c ff tf cwf = .error .notHashable := by
      rcases hbad with ⟨x, hx, he⟩ | ⟨x, hx, he⟩
      · have := hashableListNone la x hx he
        simp [diffSeq, seqElems, hasIterOrGetitem, this, bind, Except.bind]
      · have := hashableListNone lb x hx he
        cases ha : hashableList la with
        | none => simp [diffSeq, seqElems, hasIterOrGetitem, ha, bind, Except.bind]
        | some l2 =>
          simp [diffSeq, seqElems, hasIterOrGetitem, ha, this, bind, Except.bind, pure, Except.pure]
    simp [diffV, tryDiffSeq, hseq, pyType, hasSetOps]
  · intro ctx recur x y rest st hcw hrec
    simp [processPairs, hcw, hrec, isDiffTypeError]
  · intro ctx recur x y rest st e hcw hrec he
    simp [processPairs, hcw, hrec, he]
  · intro ctx recur a b cwf depth key bval rest c hb hne hcw hrec
    have hstep : diffDictStep ctx recur a b cwf depth key = .error .notHashable := by
      simp [diffDictStep, hb, hne, hcw, hrec, isDiffTypeError]
    simp [diffDictLoop, hstep, bind, Except.bind]
  · intro ctx recur a b cwf depth key bval e hb hne hcw hrec he
    simp [diffDictStep, hb, hne, hcw, hrec, he]

theorem c5ClaimWitness :
    ((∃ x ∈ [Val.objV 0 false], hashableV x = none) ∧
      diffV ctxZero 1 (.listV [.objV 0 false]) (.listV []) 3 0 "a" "b" false =
        .error .notHashable) ∧
    (comparesWithFunc ctxZero (.listV [.objV 0 false]) (.listV [.intV 1]) = .ok false ∧
      (fun x y => diffV ctxZero 5 x y 3 1 "a" "b" false) (.listV [.objV 0 false]) (.listV [.intV 1]) =
        .error .notHashable ∧
      processPairs ctxZero (fun x y => diffV ctxZero 5 x y 3 1 "a" "b" false)
        [(.listV [.objV 0 false], .listV [.intV 1])] ⟨[], [], [], false⟩ =
        .error .notHashable) ∧
    (processPairs ctxZero (fun x y => diffV ctxZero 5 x y 3 1 "a" "b" false)
        [(.intV 1, .intV 2)] ⟨[], [], [], false⟩ =
      processPairs ctxZero (fun x y => diffV ctxZero 5 x y 3 1 "a" "b" false)
        [] ⟨[], [.intV 1], [.intV 2], true⟩) ∧
    (diffDictLoop ctxZero (fun x y => diffV ctxZero 5 x y 3 1 "a" "b" false)
        [(.strV "k", .listV [.objV 0 false])] [(.strV "k", .listV [.intV 1])] false 0
        [.strV "k"] 3 = .error .notHashable) ∧
    (diffDictStep ctxZero (fun x y => diffV ctxZero 5 x y 3 1 "a" "b" false)
        [(.strV "k", .intV 1)] [(.strV "k", .intV 2)] false 0 (.strV "k") =
      .ok ([.changeE .delete (.ditems [⟨.strV "k", .rawD (.intV 1), 0⟩]),
            .changeE .insert (.ditems [⟨.strV "k", .rawD (.intV 2), 0⟩])], false)) := by
  refine ⟨⟨⟨.objV 0 false, by simp, rfl⟩, ?_⟩, ⟨rfl, rfl, ?_⟩, ?_, ?_, ?_⟩
  · exact c5Claim.1 ctxZero 0 [.objV 0 false] [] 3 0 "a" "b" false
      (Or.inl ⟨.objV 0 false, by simp, rfl⟩)
  · exact c5Claim.2.1 ctxZero _ (.listV [.objV 0 false]) (.listV [.intV 1]) [] ⟨[], [], [], false⟩ rfl rfl
  · exact c5Claim.2.2.1 ctxZero _ (.intV 1) (.intV 2) [] ⟨[], [], [], false⟩
      (.diffNotImplementedForType .intT) rfl rfl rfl
  · exact c5Claim.2.2.2.1 ctxZero _ [(.strV "k", .listV [.objV 0 false])]
      [(.strV "k", .listV [.intV 1])] false 0 (.strV "k") (.listV [.intV 1]) [] 3
      (by rfl) (by rfl) (by simp [pyCallable, pyLookup, pyLookupOpt]) (by rfl)
  · exact c5Claim.2.2.2.2 ctxZero _ [(.strV "k", .intV 1)] [(.strV "k", .intV 2)] false 0
      (.strV "k") (.intV 2) (.diffNotImplementedForType .intT)
      (by rfl) (by rfl) (by simp [pyCallable, pyLookup, pyLookupOpt]) (by rfl) (by rfl)

/-- C6: the `replace` branch of `diff_seq`.  (1) Exactly
`min(i2-i1, j2-j1)` element pairs are processed positionally (`zip`
truncation).  (2) A pair satisfying the comparison callable contributes
nothing — the state is untouched.  (3) A pair whose recursive diff is
empty likewise contributes nothing.  (4) A pair whose recursive diff
raises a type mismatch is appended to the delete/insert buffers.
(5) After the pairs, the branch flushes the buffers and appends the
longer side's remaining tail as a pure delete (`a` longer) or insert
(`b` longer).  (6) That delete tail is exactly the part of `a[i1:i2]`
beyond the zipped prefix. -/
theorem c6Claim :
    (∀ (ea eb : List Val) (i1 i2 j1 j2 : Nat),
      ((sliceL ea i1 i2).zip (sliceL eb j1 j2)).length =
        min (sliceL ea i1 i2).length (sliceL eb j1 j2).length) ∧
    (∀ (ctx : Ctx) (recur : Val → Val → Except PyErr DiffResult) (x y : Val)
       (rest : List (Val × Val)) (st : ChunkState),
      comparesWithFunc ctx x y = .ok true →
      processPairs ctx recur ((x, y) :: rest) st = processPairs ctx recur rest st) ∧
    (∀ (ctx : Ctx) (recur : Val → Val → Except PyErr DiffResult) (x y : Val)
       (rest : List (Val × Val)) (st : ChunkState) (r : DiffResult),
      comparesWithFunc ctx x y = .ok false →
      recur x y = .ok r → pyBoolR r = false →
      processPairs ctx recur ((x, y) :: rest) st = processPairs ctx recur rest st) ∧
    (∀ (ctx : Ctx) (recur : Val → Val → Except PyErr DiffResult) (x y : Val)
       (rest : List (Val × Val)) (st : ChunkState) (e : PyErr),
      comparesWithFunc ctx x y = .ok false →
      recur x y = .error e → isDiffTypeError e = true →
      processPairs ctx recur ((x, y) :: rest) st =
        processPairs ctx recur rest ⟨st.entries, st.dels ++ [x], st.inss ++ [y], true⟩) ∧
    (∀ (ctx : Ctx) (recur : Val → Val → Except PyErr DiffResult) (ea eb : List Val)
       (i1 i2 j1 j2 : Nat) (st st2 : ChunkState),
      processPairs ctx recur ((sliceL ea i1 i2).zip (sliceL eb j1 j2))
          ⟨st.entries, [], [], st.realy⟩ = .ok st2 →
      replaceBranch ctx recur ea eb i1 i2 j1 j2 st =
        .ok ⟨st2.entries
              ++ [.changeE .delete (.vals st2.dels)]
              ++ (if j2 - j1 < i2 - i1 then
                    [.changeE .delete (.vals (sliceL ea (i1 + (j2 - j1)) i2))] else [])
              ++ [.changeE .insert (.vals st2.inss)]
              ++ (if i2 - i1 < j2 - j1 then
                    [.changeE .insert (.vals (sliceL eb (j1 + (i2 - i1)) j2))] else []),
             [], [], st2.realy⟩) ∧
    (∀ (ea eb : List Val) (i1 i2 j1 j2 : Nat),
      i2 ≤ ea.length → j2 ≤ eb.length → j2 - j1 < i2 - i1 →
      sliceL ea (i1 + (j2 - j1)) i2 =
        (sliceL ea i1 i2).drop ((sliceL eb j1 j2).length)) := by
  refine ⟨?_, ?_, ?_, ?_, ?_, ?_⟩
  · intro ea eb i1 i2 j1 j2
    exact List.length_zip _ _
  · intro ctx recur x y rest st hcw
    simp [processPairs, hcw]
  · intro ctx recur x y rest st r hcw hrec hempty
    simp [processPairs, hcw, hrec, hempty]
  · intro ctx recur x y rest st e hcw hrec he
    simp [processPairs, hcw, hrec, he]
  · intro ctx recur ea eb i1 i2 j1 j2 st st2 hpp
    simp [replaceBranch, hpp, bind, Except.bind]
  · intro ea eb i1 i2 j1 j2 hi2 hj2 hlt
    simp only [sliceL, List.length_take, List.length_drop]
    rw [List.drop_take, List.drop_drop]
    congr 1
    · omega
    · congr 1
      omega

theorem c6ClaimWitness :
    (((sliceL [Val.intV 1, Val.intV 2] 0 2).zip (sliceL [Val.intV 9] 0 1)).length =
      min (sliceL [Val.intV 1, Val.intV 2] 0 2).length (sliceL [Val.intV 9] 0 1).length) ∧
    (comparesWithFunc ctxCalls (.funcV 0) (.intV 5) = .ok true ∧
      processPairs ctxCalls (fun x y => diffV ctxCalls 5 x y 3 1 "a" "b" true)
          [(.funcV 0, .intV 5)] ⟨[], [], [], false⟩ =
        processPairs ctxCalls (fun x y => diffV ctxCalls 5 x y 3 1 "a" "b" true)
          [] ⟨[], [], [], false⟩) ∧
    (processPairs ctxZero (fun x y => diffV ctxZero 5 x y 3 1 "a" "b" false)
        [(.listV [.intV 1], .listV [.intV 1])] ⟨[], [], [], false⟩ =
      processPairs ctxZero (fun x y => diffV ctxZero 5 x y 3 1 "a" "b" false)
        [] ⟨[], [], [], false⟩) ∧
    (processPairs ctxZero (fun x y => diffV ctxZero 5 x y 3 1 "a" "b" false)
        [(.strV "u", .strV "v")] ⟨[], [], [], false⟩ =
      processPairs ctxZero (fun x y => diffV ctxZero 5 x y 3 1 "a" "b" false)
        [] ⟨[], [.strV "u"], [.strV "v"], true⟩) ∧
    (replaceBranch ctxZero (fun x y => diffV ctxZero 5 x y 3 1 "a" "b" false)
        [.intV 1, .intV 2] [.intV 9] 0 2 0 1 ⟨[], [], [], false⟩ =
      .ok ⟨[.changeE .delete (.vals [.intV 1])]
            ++ [.changeE .delete (.vals (sliceL [.intV 1, .intV 2] 1 2))]
            ++ [.changeE .insert (.vals [.intV 9])]
            ++ [], [], [], true⟩) ∧
    (sliceL [Val.intV 1, Val.intV 2] (0 + (1 - 0)) 2 =
      (sliceL [Val.intV 1, Val.intV 2] 0 2).drop ((sliceL [Val.intV 9] 0 1).length)) := by
  refine ⟨c6Claim.1 [Val.intV 1, Val.intV 2] [Val.intV 9] 0 2 0 1, ⟨rfl, ?_⟩, ?_, ?_, ?_, ?_⟩
  · exact c6Claim.2.1 ctxCalls _ (.funcV 0) (.intV 5) [] ⟨[], [], [], false⟩ rfl
  · exact c6Claim.2.2.1 ctxZero _ (.listV [.intV 1]) (.listV [.intV 1]) [] ⟨[], [], [], false⟩
      (.tree ⟨.listT, "[", "]", "a", "b", []⟩) rfl rfl rfl
  · exact c6Claim.2.2.2.1 ctxZero _ (.strV "u") (.strV "v") [] ⟨[], [], [], false⟩
      (.diffNotImplementedForType .strT) rfl rfl rfl
  · have := c6Claim.2.2.2.2.1 ctxZero (fun x y => diffV ctxZero 5 x y 3 1 "a" "b" false)
      [.intV 1, .intV 2] [.intV 9] 0 2 0 1 ⟨[], [], [], false⟩ ⟨[], [.intV 1], [.intV 9], true⟩ rfl
    simpa using this
  · exact c6Claim.2.2.2.2.2 [Val.intV 1, Val.intV 2] [Val.intV 9] 0 2 0 1
      (by decide) (by decide) (by decide)

def c7a : Val := .listV ([0,1,2,3,4,5,6,7,8,9,10,11,12,13,14,15,16,17,18,19].map .intV)

def c7b : Val := .listV ([0,1,99,3,4,5,6,7,8,9,10,11,98,13,14,15,16,17,18,19].map .intV)

/-- C7, counterexample: with `context = 1`, two separated changes produce
two grouped-opcode chunks, and the `if i2 < len(a)` check sits *inside*
the chunk loop — so the result carries one `ContextEndContainer` per
chunk, two in total, where the claim says one trailing marker is appended
(not one per chunk). -/
theorem c7Counterexample :
    countEndMarkers (diffV ctxZero 5 c7a c7b 1 0 "a" "b" false) = 2 := by
  rfl

theorem processPairsNoEnd (ctx : Ctx) (recur : Val → Val → Except PyErr DiffResult) :
    ∀ (pairs : List (Val × Val)) (st st2 : ChunkState),
      processPairs ctx recur pairs st = .ok st2 →
      (∀ e ∈ st.entries, isEndEntry e = false) →
      ∀ e ∈ st2.entries, isEndEntry e = false := by
  intro pairs
  induction pairs with
  | nil =>
    intro st st2 h hst
    simp [processPairs] at h
    simpa [← h] using hst
  | cons p rest ih =>
    intro st st2 h hst
    rcases p with ⟨x, y⟩
    rw [processPairs] at h
    cases hcw : comparesWithFunc ctx x y with
    | error e => simp [hcw] at h
    | ok flag =>
      cases flag with
      | true =>
        simp only [hcw] at h
        exact ih st st2 h hst
      | false =>
        simp only [hcw] at h
        cases hrec : recur x y with
        | ok r =>
          simp only [hrec] at h
          by_cases hb : pyBoolR r = true
          · simp only [hb, if_pos rfl] at h
            refine ih _ st2 h ?_
            intro e he
            rcases List.mem_append.mp he with he2 | he2
            · exact hst e he2
            · simp only [List.mem_cons, List.not_mem_nil, or_false] at he2
              rcases he2 with rfl | rfl | rfl
              · simp [isEndEntry, entryTag]
              · simp [isEndEntry, entryTag]
              · cases r <;> simp [isEndEntry, entryTag]
          · simp only [Bool.not_eq_true] at hb
            simp only [hb, Bool.false_eq_true, if_false] at h
            exact ih st st2 h hst
        | error e =>
          simp only [hrec] at h
          by_cases hd : isDiffTypeError e = true
          · simp only [hd, if_pos rfl] at h
            exact ih _ st2 h hst
          · simp only [Bool.not_eq_true] at hd
            simp only [hd, Bool.false_eq_true, if_false] at h
            cases h

theorem replaceBranchNoEnd (ctx : Ctx) (recur : Val → Val → Except PyErr DiffResult)
    (ea eb : List Val) (i1 i2 j1 j2 : Nat) (st st2 : ChunkState)
    (h : replaceBranch ctx recur ea eb i1 i2 j1 j2 st = .ok st2)
    (hst : ∀ e ∈ st.entries, isEndEntry e = false) :
    ∀ e ∈ st2.entries, isEndEntry e = false := by
  rw [replaceBranch] at h
  cases hpp : processPairs ctx recur ((sliceL ea i1 i2).zip (sliceL eb j1 j2))
      ⟨st.entries, [], [], st.realy⟩ with
  | error e => rw [hpp] at h; cases h
  | ok stm =>
    rw [hpp] at h
    simp only [bind, Except.bind, Except.ok.injEq] at h
    have hmid : ∀ e ∈ stm.entries, isEndEntry e = false :=
      processPairsNoEnd ctx recur _ _ stm hpp (by simpa using hst)
    intro e he
    rw [← h] at he
    simp only [List.mem_append] at he
    rcases he with ((((he | he) | he) | he) | he)
    · exact hmid e he
    · rcases List.mem_singleton.mp he with rfl; simp [isEndEntry, entryTag]
    · split at he
      · rcases List.mem_singleton.mp he with rfl; simp [isEndEntry, entryTag]
      · cases he
    · rcases List.mem_singleton.mp he with rfl; simp [isEndEntry, entryTag]
    · split at he
      · rcases List.mem_singleton.mp he with rfl; simp [isEndEntry, entryTag]
      · cases he

theorem processOpcodeNoEnd (ctx : Ctx) (recur : Val → Val → Except PyErr DiffResult)
    (ea eb : List Val) (st st2 : ChunkState) (c : Opcode)
    (h : processOpcode ctx recur ea eb st c = .ok st2)
    (hst : ∀ e ∈ st.entries, isEndEntry e = false) :
    ∀ e ∈ st2.entries, isEndEntry e = false := by
  rw [processOpcode] at h
  cases htag : c.tag <;> rw [htag] at h
  · exact replaceBranchNoEnd ctx recur ea eb c.i1 c.i2 c.j1 c.j2 st st2 h hst
  all_goals
    (cases h
     intro e he
     rcases List.mem_append.mp he with he | he
     · exact hst e he
     · rcases List.mem_singleton.mp he with rfl; simp [isEndEntry, entryTag])

theorem foldChunkNoEnd (ctx : Ctx) (recur : Val → Val → Except PyErr DiffResult)
    (ea eb : List Val) :
    ∀ (chunk : List Opcode) (st st2 : ChunkState),
      chunk.foldlM (processOpcode ctx recur ea eb) st = .ok st2 →
      (∀ e ∈ st.entries, isEndEntry e = false) →
      ∀ e ∈ st2.entries, isEndEntry e = false := by
  intro chunk
  induction chunk with
  | nil =>
    intro st st2 h hst
    simp only [List.foldlM_nil, pure, Except.pure, Except.ok.injEq] at h
    subst h
    exact hst
  | cons c rest ih =>
    intro st st2 h hst
    rw [List.foldlM_cons] at h
    cases hc : processOpcode ctx recur ea eb st c with
    | error e => rw [hc] at h; cases h
    | ok stm =>
      rw [hc] at h
      simp only [bind, Except.bind] at h
      exact ih stm st2 h (processOpcodeNoEnd ctx recur ea eb st stm c hc hst)

/-- C7, amended: the `ContextEndContainer` of the sequence differ is a
*per-chunk* trailing marker — after processing a chunk's opcodes, one
marker is appended iff the last opcode's end index `i2` for `a` is before
`len(a)`, and nothing else in the chunk can be a
`ContextEndContainer` (with several chunks kept, the result carries one
marker per such chunk). -/
theorem c7Claim (ctx : Ctx) (recur : Val → Val → Except PyErr DiffResult) (cwf : Bool)
    (ea eb : List Val) (chunk : List Opcode) (c0 cl : Opcode)
    (es : List DiffEntry) (realy : Bool) (li2 : Nat)
    (h0 : chunk.head? = some c0) (hl : chunk.getLast? = some cl)
    (h : processChunk ctx recur cwf ea eb chunk = .ok (es, realy, li2)) :
    li2 = cl.i2 ∧
      ∃ core, es = core ++ (if cl.i2 < ea.length then [DiffEntry.contextEndContainer] else []) ∧
        ∀ e ∈ core, isEndEntry e = false := by
  rw [processChunk, h0, hl] at h
  dsimp only at h
  cases hf : chunk.foldlM (processOpcode ctx recur ea eb)
      ⟨[.contextE (c0.i1 - 1) (cl.i2 - 1) (c0.j1 - 1) (cl.j2 - 1)], [], [], !cwf⟩ with
  | error e => rw [hf] at h; cases h
  | ok stF =>
    rw [hf] at h
    have hlast : chunk.getLastD cl = cl := by
      rw [List.getLastD_eq_getLast?, hl]
      rfl
    simp only [bind, Except.bind, hlast, Except.ok.injEq, Prod.mk.injEq] at h
    rcases h with ⟨hes, _, hli⟩
    refine ⟨hli.symm, stF.entries, hes.symm, ?_⟩
    exact foldChunkNoEnd ctx recur ea eb chunk _ stF hf
      (by intro e he
          rcases List.mem_singleton.mp he with rfl
          simp [isEndEntry, entryTag])

theorem c7ClaimWitness :
    ([(⟨.replace, 0, 1, 0, 1⟩ : Opcode)].head? = some ⟨.replace, 0, 1, 0, 1⟩) ∧
      processChunk ctxZero (fun x y => diffV ctxZero 5 x y 3 1 "a" "b" false) false
          [.intV 1, .intV 2] [.intV 9, .intV 2] [⟨.replace, 0, 1, 0, 1⟩] =
        .ok ([.contextE 0 0 0 0, .changeE .delete (.vals [.intV 1]),
              .changeE .insert (.vals [.intV 9]), .contextEndContainer], true, 1) ∧
      (1 : Nat) = (⟨.replace, 0, 1, 0, 1⟩ : Opcode).i2 ∧
      ∃ core, ([DiffEntry.contextE 0 0 0 0, .changeE .delete (.vals [.intV 1]),
                .changeE .insert (.vals [.intV 9]), .contextEndContainer] : List DiffEntry) =
          core ++ (if (⟨.replace, 0, 1, 0, 1⟩ : Opcode).i2 < ([Val.intV 1, Val.intV 2] : List Val).length
                   then [DiffEntry.contextEndContainer] else []) ∧
        ∀ e ∈ core, isEndEntry e = false := by
  refine ⟨rfl, rfl, ?_⟩
  exact c7Claim ctxZero (fun x y => diffV ctxZero 5 x y 3 1 "a" "b" false) false
    [.intV 1, .intV 2] [.intV 9, .intV 2] [⟨.replace, 0, 1, 0, 1⟩]
    ⟨.replace, 0, 1, 0, 1⟩ ⟨.replace, 0, 1, 0, 1⟩
    [.contextE 0 0 0 0, .changeE .delete (.vals [.intV 1]),
     .changeE .insert (.vals [.intV 9]), .contextEndContainer] true 1 rfl rfl rfl

def c2five : Val :=
  .dictV (["a", "b", "c", "d", "e"].map fun s => (.strV s, .intV 0))

/-- C2, counterexample: diffing a five-key mapping against itself with
budget `context = 3` emits *four* equal entries — keys at equal-positions
0, 1, 2 and 4; only the fourth equal key is suppressed, because `if
context:` treats the by-then negative budget as true again.  The claim
(`no equal entry is emitted for any equal key after the c-th`) would
allow exactly 3. -/
theorem c2Counterexample :
    countEqualEntries (diffV ctxZero 5 c2five c2five 3 0 "a" "b" false) = 4 := by
  rfl

/-- the equal entries `diff_dict` emits, given the per-key `add_equal`
flags, in iteration order: one for each flagged key at whose turn the
remaining budget is nonzero (the budget is decremented for every flagged
key, emitted or not). -/
def emittedList (b : List (Val × Val)) : List Val → List Bool → Int → List DiffEntry
  | key :: keys, flag :: flags, c =>
    (if flag ∧ c ≠ 0 then
      [DiffEntry.changeE .equal (.ditems [⟨key, .rawD (pyLookup b key), 0⟩])] else [])
      ++ emittedList b keys flags (if flag then c - 1 else c)
  | _, _, _ => []

def countTrue (flags : List Bool) : Nat := flags.count true

theorem diffDictStepEntries (ctx : Ctx) (recur : Val → Val → Except PyErr DiffResult)
    (a b : List (Val × Val)) (cwf : Bool) (depth : Nat) (key : Val)
    (es : List DiffEntry) (flag : Bool)
    (h : diffDictStep ctx recur a b cwf depth key = .ok (es, flag)) :
    ∀ e ∈ es, isEqualEntry e = false ∧ isEndEntry e = false := by
  rw [diffDictStep] at h
  cases hb : pyLookupOpt b key with
  | none =>
    rw [hb] at h
    injection h with h2
    injection h2 with h21 h22
    subst h21
    intro e he
    rcases List.mem_singleton.mp he with rfl
    simp [isEqualEntry, isEndEntry, entryTag]
  | some bval =>
    rw [hb] at h
    dsimp only at h
    by_cases heq : pyEq (pyLookup a key) bval = true
    · rw [if_pos heq] at h
      injection h with h2
      injection h2 with h21 h22
      subst h21
      intro e he
      cases he
    · rw [if_neg heq] at h
      by_cases hcw : cwf = true ∧ pyCallable (pyLookup a key) = true
      · rw [if_pos hcw] at h
        cases hc : callV ctx (pyLookup a key) bval with
        | ok r =>
          rw [hc] at h
          dsimp only at h
          by_cases ht : pyTruthy r = true
          · rw [if_pos ht] at h
            injection h with h2
            injection h2 with h21 h22
            subst h21
            intro e he
            cases he
          · rw [if_neg ht] at h
            injection h with h2
            injection h2 with h21 h22
            subst h21
            intro e he
            simp only [List.mem_cons, List.not_mem_nil, or_false] at he
            rcases he with rfl | rfl <;> simp [isEqualEntry, isEndEntry, entryTag]
        | error e2 =>
          rw [hc] at h
          dsimp only at h
          injection h with h2
          injection h2 with h21 h22
          subst h21
          intro e he
          simp only [List.mem_cons, List.not_mem_nil, or_false] at he
          rcases he with rfl | rfl <;> simp [isEqualEntry, isEndEntry, entryTag]
      · rw [if_neg hcw] at h
        cases hr : recur (pyLookup a key) bval with
        | ok r =>
          rw [hr] at h
          dsimp only at h
          by_cases hbr : pyBoolR r = true
          · rw [if_pos hbr] at h
            injection h with h2
            injection h2 with h21 h22
            subst h21
            intro e he
            rcases List.mem_singleton.mp he with rfl
            simp [isEqualEntry, isEndEntry, entryTag]
          · rw [if_neg hbr] at h
            injection h with h2
            injection h2 with h21 h22
            subst h21
            intro e he
            cases he
        | error e2 =>
          rw [hr] at h
          dsimp only at h
          by_cases hd : isDiffTypeError e2 = true
          · rw [if_pos hd] at h
            injection h with h2
            injection h2 with h21 h22
            subst h21
            intro e he
            simp only [List.mem_cons, List.not_mem_nil, or_false] at he
            rcases he with rfl | rfl <;> simp [isEqualEntry, isEndEntry, entryTag]
          · rw [if_neg hd] at h
            cases h

/-- the per-key `add_equal` flags of a run of `diff_dict`'s loop. -/
def stepFlags (ctx : Ctx) (recur : Val → Val → Except PyErr DiffResult)
    (a b : List (Val × Val)) (cwf : Bool) (depth : Nat) :
    List Val → Except PyErr (List Bool)
  | [] => .ok []
  | k :: ks => do
    let step ← diffDictStep ctx recur a b cwf depth k
    let rest ← stepFlags ctx recur a b cwf depth ks
    .ok (step.2 :: rest)

theorem diffDictLoopChar (ctx : Ctx) (recur : Val → Val → Except PyErr DiffResult)
    (a b : List (Val × Val)) (cwf : Bool) (depth : Nat) :
    ∀ (keys : List Val) (c : Int) (entries : List DiffEntry) (cF : Int),
      diffDictLoop ctx recur a b cwf depth keys c = .ok (entries, cF) →
      ∃ flags : List Bool,
        stepFlags ctx recur a b cwf depth keys = .ok flags ∧
        cF = c - countTrue flags ∧
        entries.filter isEqualEntry = emittedList b keys flags c ∧
        (∀ e ∈ entries, isEndEntry e = false) := by
  intro keys
  induction keys with
  | nil =>
    intro c entries cF h
    rw [diffDictLoop] at h
    injection h with h2
    injection h2 with h21 h22
    subst h21
    subst h22
    exact ⟨[], rfl, by simp [countTrue], by simp [emittedList], by simp⟩
  | cons key rest ih =>
    intro c entries cF h
    rw [diffDictLoop] at h
    cases hstep : diffDictStep ctx recur a b cwf depth key with
    | error e =>
      rw [hstep] at h
      simp only [bind, Except.bind] at h
      cases h
    | ok p =>
      rcases p with ⟨es, flag⟩
      rw [hstep] at h
      simp only [bind, Except.bind] at h
      cases hrest : diffDictLoop ctx recur a b cwf depth rest
          (if flag = true then c - 1 else c) with
      | error e =>
        rw [hrest] at h
        cases h
      | ok q =>
        rcases q with ⟨restEs, cF2⟩
        rw [hrest] at h
        injection h with h2
        injection h2 with h21 h22
        subst h22
        obtain ⟨flags, hmapM, hcF, hfilter, hend⟩ :=
          ih (if flag = true then c - 1 else c) restEs cF2 hrest
        have hes := diffDictStepEntries ctx recur a b cwf depth key es flag hstep
        refine ⟨flag :: flags, ?_, ?_, ?_, ?_⟩
        · rw [stepFlags]
          simp [hstep, hmapM, bind, Except.bind]
        · subst hcF
          cases flag <;> simp [countTrue, List.count_cons] <;> omega
        · subst h21
          rw [List.filter_append, List.filter_append, emittedList]
          have h1 : es.filter isEqualEntry = [] :=
            List.filter_eq_nil_iff.mpr fun e he => by simp [(hes e he).1]
          rw [h1, List.nil_append]
          congr 1
          split
          · simp [isEqualEntry, entryTag, List.filter]
          · simp
        · subst h21
          intro e he
          rcases List.mem_append.mp he with he2 | he2
          · rcases List.mem_append.mp he2 with he3 | he3
            · exact (hes e he3).2
            · split at he3
              · rcases List.mem_singleton.mp he3 with rfl
                simp [isEndEntry, entryTag]
              · cases he3
          · exact hend e he2

theorem stableInsertPerm (x : SortKey × DiffEntry) :
    ∀ l, (stableInsert x l).Perm (x :: l) := by
  intro l
  induction l with
  | nil => exact List.Perm.refl _
  | cons y ys ih =>
    rw [stableInsert]
    split
    · exact (ih.cons y).trans (List.Perm.swap x y ys)
    · exact List.Perm.refl _

theorem stableSortAuxPerm :
    ∀ (l acc : List (SortKey × DiffEntry)),
      (l.foldl (fun acc x => stableInsert x acc) acc).Perm (acc ++ l) := by
  intro l
  induction l with
  | nil => intro acc; simp
  | cons x xs ih =>
    intro acc
    rw [List.foldl_cons]
    refine (ih (stableInsert x acc)).trans ?_
    refine (List.Perm.append_right xs (stableInsertPerm x acc)).trans ?_
    exact List.perm_middle.symm

theorem exceptMapMLength {α β : Type} (f : α → Except PyErr β) :
    ∀ (l : List α) (ks : List β), l.mapM f = .ok ks → ks.length = l.length := by
  intro l
  induction l with
  | nil =>
    intro ks h
    simp only [List.mapM_nil, pure, Except.pure, Except.ok.injEq] at h
    subst h
    rfl
  | cons x xs ih =>
    intro ks h
    rw [List.mapM_cons] at h
    cases hx : f x with
    | error e => rw [hx] at h; simp [bind, Except.bind] at h
    | ok v =>
      rw [hx] at h
      cases hxs : xs.mapM f with
      | error e =>
        rw [hxs] at h
        simp [bind, Except.bind, pure, Except.pure] at h
      | ok vs =>
        rw [hxs] at h
        simp only [bind, Except.bind, pure, Except.pure, Except.ok.injEq] at h
        subst h
        simp [ih vs hxs]

theorem sortDiffsPerm (ctx : Ctx) (entries sorted : List DiffEntry)
    (h : sortDiffs ctx entries = .ok sorted) : sorted.Perm entries := by
  rw [sortDiffs] at h
  cases hk : entries.mapM (diffitemDictitemSortKey ctx) with
  | error e =>
    rw [hk] at h
    simp [bind, Except.bind] at h
  | ok keys =>
    rw [hk] at h
    simp only [bind, Except.bind] at h
    split at h
    · injection h with h2
      subst h2
      have hperm : (stableSortPairs (keys.zip entries)).Perm (keys.zip entries) := by
        rw [stableSortPairs]
        simpa using stableSortAuxPerm (keys.zip entries) []
      have hmap := hperm.map Prod.snd
      have hlen : keys.length = entries.length := exceptMapMLength _ entries keys hk
      have hz : (keys.zip entries).map Prod.snd = entries :=
        List.map_snd_zip keys entries (le_of_eq hlen.symm)
      rwa [hz] at hmap
    · cases h

theorem insertEntriesShape (a b : List (Val × Val)) :
    ∀ e ∈ (b.map Prod.fst).filterMap fun k =>
        if pyKeyIn a k then none
        else some (DiffEntry.changeE .insert (.ditems [⟨k, .rawD (pyLookup b k), 0⟩])),
      isEqualEntry e = false ∧ isEndEntry e = false := by
  intro e he
  rcases List.mem_filterMap.mp he with ⟨k, hk, hf⟩
  split at hf
  · cases hf
  · injection hf with hf2
    subst hf2
    simp [isEqualEntry, isEndEntry, entryTag]

/-- C2: what the mapping differ's context budget actually does.  For any
successful `diff_dict` run there are per-key `add_equal` flags such that:
the equal entries of the result are, up to the deterministic sort's
permutation, `emittedList` — one equal entry for each equal key at whose
turn the remaining budget is *nonzero* (so the first `c` equal keys AND
every equal key from position `c+1` on; only the `(c+1)`-th equal key is
suppressed, since `if context:` is true again once the budget has gone
negative); the budget is decremented for every equal key regardless; and
a `ContextEndContainer` marker is appended exactly once at the very end
iff the number of equal keys exceeds `c` (the final budget is negative),
with no marker anywhere else. -/
theorem c2Claim (ctx : Ctx) (recur : Val → Val → Except PyErr DiffResult)
    (a b : List (Val × Val)) (c : Int) (depth : Nat) (ff tf : String) (cwf : Bool)
    (d : DataDiff)
    (h : diffDict ctx recur a b c depth ff tf cwf = .ok d) :
    ∃ flags : List Bool,
      stepFlags ctx recur a b cwf depth (a.map Prod.fst) = .ok flags ∧
      (d.diffs.filter isEqualEntry).Perm (emittedList b (a.map Prod.fst) flags c) ∧
      ∃ pre : List DiffEntry,
        d.diffs = pre ++
          (if c < (countTrue flags : Int) then [DiffEntry.contextEndContainer] else []) ∧
        ∀ e ∈ pre, isEndEntry e = false := by
  rw [diffDict] at h
  cases hloop : diffDictLoop ctx recur a b cwf depth (a.map Prod.fst) c with
  | error e =>
    rw [hloop] at h
    simp only [bind, Except.bind] at h
    cases h
  | ok p =>
    rcases p with ⟨entries, ctxAfter⟩
    rw [hloop] at h
    simp only [bind, Except.bind] at h
    cases hsort : sortDiffs ctx (entries ++ (b.map Prod.fst).filterMap fun k =>
        if pyKeyIn a k then none
        else some (DiffEntry.changeE .insert (.ditems [⟨k, .rawD (pyLookup b k), 0⟩]))) with
    | error e =>
      rw [hsort] at h
      cases h
    | ok sorted =>
      rw [hsort] at h
      injection h with h2
      obtain ⟨flags, hflags, hcF, hfilter, hend⟩ :=
        diffDictLoopChar ctx recur a b cwf depth (a.map Prod.fst) c entries ctxAfter hloop
      have hperm := sortDiffsPerm ctx _ sorted hsort
      have hins := insertEntriesShape a b
      have hd : d.diffs =
          sorted ++ (if ctxAfter < 0 then [DiffEntry.contextEndContainer] else []) := by
        rw [← h2, DataDiff.diffs]
      refine ⟨flags, hflags, ?_, sorted, ?_, ?_⟩
      · rw [hd, List.filter_append]
        have hm : (if ctxAfter < 0 then [DiffEntry.contextEndContainer] else
            ([] : List DiffEntry)).filter isEqualEntry = [] := by
          split
          · simp [isEqualEntry, entryTag, List.filter]
          · rfl
        rw [hm, List.append_nil]
        refine (hperm.filter isEqualEntry).trans ?_
        rw [List.filter_append, hfilter]
        have h1 : (((b.map Prod.fst).filterMap fun k =>
            if pyKeyIn a k then none
            else some (DiffEntry.changeE .insert
              (.ditems [⟨k, .rawD (pyLookup b k), 0⟩]))).filter isEqualEntry) = [] :=
          List.filter_eq_nil_iff.mpr fun e he => by simp [(hins e he).1]
        rw [h1, List.append_nil]
      · rw [hd]
        have hiff : ctxAfter < 0 ↔ c < (countTrue flags : Int) := by omega
        rw [if_congr hiff rfl rfl]
      · intro e he
        rcases List.mem_append.mp (hperm.mem_iff.mp he) with he2 | he2
        · exact hend e he2
        · exact (hins e he2).2

theorem c2ClaimWitness :
    ∃ d : DataDiff,
      diffDict ctxZero (fun _ _ => Except.error PyErr.notSequence)
        (["a", "b", "c", "d", "e"].map fun s => (Val.strV s, Val.intV 0))
        (["a", "b", "c", "d", "e"].map fun s => (Val.strV s, Val.intV 0))
        3 0 "a" "b" false = Except.ok d ∧
      ∃ flags : List Bool,
        stepFlags ctxZero (fun _ _ => Except.error PyErr.notSequence)
          (["a", "b", "c", "d", "e"].map fun s => (Val.strV s, Val.intV 0))
          (["a", "b", "c", "d", "e"].map fun s => (Val.strV s, Val.intV 0))
          false 0
          ((["a", "b", "c", "d", "e"].map fun s => (Val.strV s, Val.intV 0)).map Prod.fst)
          = .ok flags ∧
        (d.diffs.filter isEqualEntry).Perm
          (emittedList (["a", "b", "c", "d", "e"].map fun s => (Val.strV s, Val.intV 0))
            ((["a", "b", "c", "d", "e"].map fun s => (Val.strV s, Val.intV 0)).map Prod.fst)
            flags 3) ∧
        ∃ pre : List DiffEntry,
          d.diffs = pre ++
            (if (3 : Int) < (countTrue flags : Int) then [DiffEntry.contextEndContainer]
             else []) ∧
          ∀ e ∈ pre, isEndEntry e = false :=
  ⟨_, rfl, c2Claim ctxZero (fun _ _ => Except.error PyErr.notSequence)
    (["a", "b", "c", "d", "e"].map fun s => (Val.strV s, Val.intV 0))
    (["a", "b", "c", "d", "e"].map fun s => (Val.strV s, Val.intV 0))
    3 0 "a" "b" false _ rfl⟩

/-- scalar canonical values: the alignment keys of text and numbers. -/
def isScalarH : HVal → Bool
  | .intH _ => true
  | .strH _ => true
  | _ => false

/-- scalar embedded values: Python text and numbers. -/
def isScalarV : Val → Bool
  | .intV _ => true
  | .strV _ => true
  | _ => false

theorem hvalSize_pos (x : HVal) : 0 < hvalSize x := by
  cases x <;> simp [hvalSize] <;> omega

theorem hvalEqF_scalar (f : Nat) (x y : HVal)
    (h : isScalarH x = true ∨ isScalarH y = true) :
    (hvalEqF (f + 1) x y = true ↔ x = y) := by
  cases x <;> cases y <;> simp_all [isScalarH, hvalEqF]

theorem hvalEq_scalar (x y : HVal) (h : isScalarH x = true ∨ isScalarH y = true) :
    (hvalEq x y = true ↔ x = y) := by
  have hp := hvalSize_pos x
  have hf : hvalSize x = (hvalSize x - 1) + 1 := by omega
  rw [hvalEq, hf]
  exact hvalEqF_scalar _ x y h

theorem hvalEq_refl_scalar (x : HVal) (h : isScalarH x = true) : hvalEq x x = true :=
  (hvalEq_scalar x x (Or.inl h)).mpr rfl

theorem valSize_scalar (x : Val) (h : isScalarV x = true) : valSize x = 1 := by
  cases x <;> simp_all [isScalarV, valSize]

theorem pyEq_scalar (x y : Val) (h : isScalarV x = true) :
    (pyEq x y = true ↔ x = y) := by
  rw [pyEq, valSize_scalar x h]
  cases x <;> cases y <;> simp_all [isScalarV, pyEqF]

theorem pyEq_refl_scalar (x : Val) (h : isScalarV x = true) : pyEq x x = true :=
  (pyEq_scalar x x h).mpr rfl

/-- the ascending position list of an element: what `b2j` records for it
before any autojunk filtering. -/
def posList : List HVal → Nat → HVal → List Nat
  | [], _, _ => []
  | y :: l, i, x => (if hvalEq y x then [i] else []) ++ posList l (i + 1) x

theorem b2jGet_insert (m : B2J) (x : HVal) (j : Nat) (x' : HVal)
    (hx : isScalarH x = true) :
    b2jGet (b2jInsert m x j) x' = b2jGet m x' ++ (if hvalEq x x' then [j] else []) := by
  induction m with
  | nil =>
    rw [b2jInsert]
    simp only [b2jGet]
    split <;> rfl
  | cons p m ih =>
    rcases p with ⟨y, js⟩
    rw [b2jInsert]
    by_cases hyx : hvalEq y x = true
    · have hy : y = x := (hvalEq_scalar y x (Or.inr hx)).mp hyx
      subst hy
      rw [if_pos hyx]
      simp only [b2jGet]
      by_cases hyx' : hvalEq y x' = true
      · simp [hyx']
      · simp [hyx']
    · rw [if_neg hyx]
      simp only [b2jGet]
      by_cases hyx' : hvalEq y x' = true
      · have hxx' : hvalEq x x' = false := by
          by_contra hcon
          have hxe : x = x' := (hvalEq_scalar x x' (Or.inl hx)).mp
            (by revert hcon; cases hvalEq x x' <;> simp)
          subst hxe
          exact hyx hyx'
        simp [hyx', hxx']
      · simp [hyx', ih]

theorem b2jGet_build (l : List HVal) (i : Nat) (acc : B2J) (x' : HVal)
    (hl : ∀ y ∈ l, isScalarH y = true) :
    b2jGet (b2jBuild l i acc) x' = b2jGet acc x' ++ posList l i x' := by
  induction l generalizing i acc with
  | nil => simp [b2jBuild, posList]
  | cons y l ih =>
    rw [b2jBuild, posList, ih (i + 1) _ (fun z hz => hl z (List.mem_cons_of_mem y hz)),
      b2jGet_insert _ _ _ _ (hl y (List.mem_cons_self y l)), List.append_assoc]

theorem posList_mem (l : List HVal) (x : HVal) :
    ∀ (i j : Nat), j ∈ posList l i x ↔
      ∃ t, t < l.length ∧ j = i + t ∧ hvalEq (l.getD t (.intH 0)) x = true := by
  induction l with
  | nil => intro i j; simp [posList]
  | cons y l ih =>
    intro i j
    rw [posList, List.mem_append, ih (i + 1) j]
    constructor
    · rintro (hj | ⟨t, ht, rfl, he⟩)
      · refine ⟨0, by simp, ?_, ?_⟩
        · revert hj; split <;> simp_all
        · revert hj; split <;> simp_all
      · exact ⟨t + 1, by simpa using ht, by omega, by simpa using he⟩
    · rintro ⟨t, ht, rfl, he⟩
      cases t with
      | zero =>
        left
        simp only [List.getD_cons_zero] at he
        simp [he]
      | succ t =>
        right
        exact ⟨t, by simpa using ht, by omega, by simpa using he⟩

theorem posList_lb (l : List HVal) (x : HVal) (i j : Nat) (h : j ∈ posList l i x) : i ≤ j := by
  rcases (posList_mem l x i j).mp h with ⟨t, _, rfl, _⟩
  omega

theorem posList_sorted (l : List HVal) (x : HVal) :
    ∀ i, List.Sorted (· < ·) (posList l i x) := by
  induction l with
  | nil => intro i; simp [posList]
  | cons y l ih =>
    intro i
    rw [posList]
    split
    · refine List.Pairwise.cons ?_ (ih (i + 1))
      intro j hj
      have := posList_lb l x (i + 1) j hj
      omega
    · simpa using ih (i + 1)

theorem b2jInsert_keys (m : B2J) (x : HVal) (j : Nat) :
    ∀ e ∈ b2jInsert m x j, e.1 ∈ m.map Prod.fst ∨ e.1 = x := by
  induction m with
  | nil =>
    intro e he
    rw [b2jInsert] at he
    rcases List.mem_singleton.mp he with rfl
    right; rfl
  | cons p m ih =>
    rcases p with ⟨y, js⟩
    intro e he
    rw [b2jInsert] at he
    split at he
    · rcases List.mem_cons.mp he with rfl | he2
      · left; simp
      · left; simp [List.mem_cons_of_mem, List.mem_map]
        right
        exact ⟨e.2, by simpa using he2⟩
    · rcases List.mem_cons.mp he with rfl | he2
      · left; simp
      · rcases ih e he2 with h2 | h2
        · left
          simp only [List.map_cons, List.mem_cons]
          right; exact h2
        · right; exact h2

theorem b2jInsert_pairwise (m : B2J) (x : HVal) (j : Nat)
    (hks : ∀ e ∈ m, isScalarH e.1 = true) (hx : isScalarH x = true)
    (hpw : m.Pairwise fun e1 e2 => e1.1 ≠ e2.1) :
    ((b2jInsert m x j).Pairwise fun e1 e2 => e1.1 ≠ e2.1) ∧
      (∀ e ∈ b2jInsert m x j, isScalarH e.1 = true) := by
  induction m with
  | nil =>
    rw [b2jInsert]
    exact ⟨List.pairwise_singleton _ _, by intro e he; rcases List.mem_singleton.mp he with rfl; exact hx⟩
  | cons p m ih =>
    rcases p with ⟨y, js⟩
    have hy : isScalarH y = true := hks (y, js) (List.mem_cons_self _ _)
    have hksm : ∀ e ∈ m, isScalarH e.1 = true := fun e he => hks e (List.mem_cons_of_mem _ he)
    rw [List.pairwise_cons] at hpw
    rw [b2jInsert]
    split
    · constructor
      · rw [List.pairwise_cons]
        exact ⟨hpw.1, hpw.2⟩
      · intro e he
        rcases List.mem_cons.mp he with rfl | he2
        · exact hy
        · exact hksm e he2
    · rename_i hyx
      obtain ⟨ihpw, ihks⟩ := ih hksm hpw.2
      constructor
      · rw [List.pairwise_cons]
        refine ⟨?_, ihpw⟩
        intro e he
        rcases b2jInsert_keys m x j e he with h2 | h2
        · rcases List.mem_map.mp h2 with ⟨e2, he2, hee⟩
          have h3 := hpw.1 e2 he2
          rw [hee] at h3
          exact h3
        · rw [h2]
          show y ≠ x
          intro hcon
          rw [hcon] at hyx
          exact hyx (hvalEq_refl_scalar x hx)
      · intro e he
        rcases List.mem_cons.mp he with rfl | he2
        · exact hy
        · exact ihks e he2

theorem b2jBuild_pairwise (l : List HVal) (hl : ∀ y ∈ l, isScalarH y = true) :
    ∀ (i : Nat) (acc : B2J), (∀ e ∈ acc, isScalarH e.1 = true) →
      (acc.Pairwise fun e1 e2 => e1.1 ≠ e2.1) →
      ((b2jBuild l i acc).Pairwise fun e1 e2 => e1.1 ≠ e2.1) ∧
        (∀ e ∈ b2jBuild l i acc, isScalarH e.1 = true) := by
  induction l with
  | nil => intro i acc h1 h2; rw [b2jBuild]; exact ⟨h2, h1⟩
  | cons y l ih =>
    intro i acc h1 h2
    rw [b2jBuild]
    have hy : isScalarH y = true := hl y (List.mem_cons_self _ _)
    obtain ⟨p1, p2⟩ := b2jInsert_pairwise acc y i h1 hy h2
    exact ih (fun z hz => hl z (List.mem_cons_of_mem _ hz)) (i + 1) _ p2 p1

theorem b2jGet_nil_of_no_match (m : B2J) (x : HVal)
    (h : ∀ e ∈ m, hvalEq e.1 x = false) : b2jGet m x = [] := by
  induction m with
  | nil => rfl
  | cons p m ih =>
    rcases p with ⟨y, js⟩
    rw [b2jGet]
    rw [h (y, js) (List.mem_cons_self _ _)]
    exact ih fun e he => h e (List.mem_cons_of_mem _ he)

theorem b2jGet_filter (m : B2J) (p : HVal × List Nat → Bool) (x : HVal)
    (hks : ∀ e ∈ m, isScalarH e.1 = true)
    (hpw : m.Pairwise fun e1 e2 => e1.1 ≠ e2.1) :
    b2jGet (m.filter p) x = b2jGet m x ∨ b2jGet (m.filter p) x = [] := by
  induction m with
  | nil => right; rfl
  | cons e m ih =>
    rcases e with ⟨y, js⟩
    have hy : isScalarH y = true := hks (y, js) (List.mem_cons_self _ _)
    have hksm : ∀ e ∈ m, isScalarH e.1 = true := fun e he => hks e (List.mem_cons_of_mem _ he)
    rw [List.pairwise_cons] at hpw
    by_cases he : hvalEq y x = true
    · have hyx : y = x := (hvalEq_scalar y x (Or.inl hy)).mp he
      have hnom : ∀ e ∈ m, hvalEq e.1 x = false := by
        intro e2 he2
        have hne := hpw.1 e2 he2
        have hs2 := hksm e2 he2
        cases hq : hvalEq e2.1 x with
        | false => rfl
        | true =>
          have : e2.1 = x := (hvalEq_scalar e2.1 x (Or.inl hs2)).mp hq
          rw [← hyx] at this
          exact absurd this.symm hne
      by_cases hp : p (y, js) = true
      · left
        rw [List.filter_cons_of_pos hp]
        simp only [b2jGet]
        rw [if_pos he, if_pos he]
      · right
        rw [List.filter_cons_of_neg (by simp [hp])]
        exact b2jGet_nil_of_no_match _ x fun e2 he2 => hnom e2 (List.mem_of_mem_filter he2)
    · by_cases hp : p (y, js) = true
      · rw [List.filter_cons_of_pos hp]
        simp only [b2jGet]
        rw [if_neg he, if_neg he]
        exact ih hksm hpw.2
      · rw [List.filter_cons_of_neg (by simp [hp])]
        simp only [b2jGet]
        rw [if_neg he]
        exact ih hksm hpw.2

theorem b2jGet_chainB (hs : List HVal) (x : HVal)
    (hsc : ∀ y ∈ hs, isScalarH y = true) :
    b2jGet (chainB hs) x = posList hs 0 x ∨ b2jGet (chainB hs) x = [] := by
  have hchar : b2jGet (b2jBuild hs 0 []) x = posList hs 0 x := by
    rw [b2jGet_build hs 0 [] x hsc]
    rfl
  obtain ⟨hpw, hks⟩ := b2jBuild_pairwise hs hsc 0 [] (by simp) (by simp)
  rw [chainB]
  dsimp only
  split
  · rcases b2jGet_filter (b2jBuild hs 0 []) _ x hks hpw with h | h
    · left; rw [h, hchar]
    · right; exact h
  · left; exact hchar

/-- is position `i` recorded in (autojunk-filtered) `b2j` under its own
element?  For an identical pair of sequences this is "the element at `i`
was not removed as popular". -/
def validPos (hs : List HVal) (i : Nat) : Bool :=
  decide (i ∈ b2jGet (chainB hs) (hs.getD i (.intH 0)))

/-- length of the diagonal chain of the `find_longest_match` DP ending at
row `i` when both sequences are `hs`: the number of consecutive
recorded positions ending at `i`. -/
def dc (hs : List HVal) : Nat → Nat
  | 0 => if validPos hs 0 then 1 else 0
  | i + 1 => if validPos hs (i + 1) then dc hs i + 1 else 0

/-- the previous row's diagonal chain (0 before the first row). -/
def dcPrev (hs : List HVal) : Nat → Nat
  | 0 => 0
  | i + 1 => dc hs i

theorem dc_le (hs : List HVal) : ∀ i, dc hs i ≤ i + 1 := by
  intro i
  induction i with
  | zero => rw [dc]; split <;> omega
  | succ i ih => rw [dc]; split <;> omega

theorem dc_succ_of_valid (hs : List HVal) (i : Nat) (h : validPos hs i = true) :
    dc hs i = dcPrev hs i + 1 := by
  cases i with
  | zero => rw [dc, if_pos h]; rfl
  | succ i => rw [dc, if_pos h]; rfl

theorem scalar_getD (hs : List HVal) (hsc : ∀ y ∈ hs, isScalarH y = true) (t : Nat) :
    isScalarH (hs.getD t (.intH 0)) = true := by
  by_cases ht : t < hs.length
  · rw [List.getD_eq_getElem hs _ ht]
    exact hsc _ (List.getElem_mem ht)
  · rw [List.getD_eq_default _ _ (by omega)]
    rfl

/-- everything the identical-sequences DP needs to know about a position
delivered by `b2j`: it is in range, carries the same element, is itself
recorded, the row's own position is recorded, and both positions share
one `b2j` list. -/
theorem mem_b2jGet_identical (hs : List HVal) (hsc : ∀ y ∈ hs, isScalarH y = true)
    (i j : Nat) (hi : i < hs.length)
    (hj : j ∈ b2jGet (chainB hs) (hs.getD i (.intH 0))) :
    j < hs.length ∧ hs.getD j (.intH 0) = hs.getD i (.intH 0) ∧
      validPos hs j = true ∧ validPos hs i = true := by
  rcases b2jGet_chainB hs (hs.getD i (.intH 0)) hsc with hch | hch
  · rw [hch] at hj
    rcases (posList_mem hs _ 0 j).mp hj with ⟨t, ht, rfl, he⟩
    simp only [Nat.zero_add] at *
    have hjeq : hs.getD t (.intH 0) = hs.getD i (.intH 0) :=
      (hvalEq_scalar _ _ (Or.inl (scalar_getD hs hsc t))).mp he
    refine ⟨ht, hjeq, ?_, ?_⟩
    · rw [validPos, decide_eq_true_eq, hjeq, hch]
      exact hj
    · rw [validPos, decide_eq_true_eq, hch, posList_mem]
      exact ⟨i, hi, by omega, hvalEq_refl_scalar _ (scalar_getD hs hsc i)⟩
  · rw [hch] at hj
    cases hj

theorem b2jGet_sorted_identical (hs : List HVal) (hsc : ∀ y ∈ hs, isScalarH y = true)
    (i : Nat) : List.Sorted (· < ·) (b2jGet (chainB hs) (hs.getD i (.intH 0))) := by
  rcases b2jGet_chainB hs (hs.getD i (.intH 0)) hsc with hch | hch
  · rw [hch]; exact posList_sorted hs _ 0
  · rw [hch]; exact List.sorted_nil

theorem validPos_mem_row (hs : List HVal) (hsc : ∀ y ∈ hs, isScalarH y = true)
    (i j : Nat) (hvj : validPos hs j = true)
    (hj : hs.getD j (.intH 0) = hs.getD i (.intH 0)) :
    j ∈ b2jGet (chainB hs) (hs.getD i (.intH 0)) := by
  rw [validPos, decide_eq_true_eq, hj] at hvj
  exact hvj

theorem j2lenGet_cons (j k : Nat) (m : J2Len) (j' : Nat) :
    j2lenGet ((j, k) :: m) j' = if j = j' then k else j2lenGet m j' := by
  rw [j2lenGet, List.find?]
  by_cases h : j = j'
  · subst h
    simp
  · have : ((j, k).1 == j') = false := by simpa using h
    rw [this, if_neg h, j2lenGet]

theorem j2lenGet_nil (j : Nat) : j2lenGet [] j = 0 := rfl

/-- Invariant of the inner DP loop of `find_longest_match` on an
identical pair of scalar sequences (`blo = 0`, `bhi = len`): every
recorded chain length is bounded by the diagonal chains of both its
column and the current row, the diagonal cell is recorded exactly, the
running best stays on the main diagonal, and its size dominates every
diagonal chain up to the current row. -/
theorem flmInner_inv (hs : List HVal) (hsc : ∀ y ∈ hs, isScalarH y = true)
    (i : Nat) (hi : i < hs.length) (old : J2Len)
    (hA : ∀ j, j2lenGet old j ≤ dc hs j)
    (hA2 : ∀ j, j2lenGet old j ≤ dcPrev hs i)
    (hB : ∀ r, i = r + 1 → j2lenGet old r = dc hs r) :
    ∀ (js : List Nat) (new : J2Len) (best : Match3),
      (∀ j ∈ js, j ∈ b2jGet (chainB hs) (hs.getD i (.intH 0))) →
      List.Sorted (· < ·) js →
      (∀ j, j2lenGet new j ≤ dc hs j) →
      (∀ j, j2lenGet new j ≤ dc hs i) →
      (i ∈ js ∨ j2lenGet new i = dc hs i) →
      (∀ i2, i2 < i → dc hs i2 ≤ best.bestsize) →
      (i ∈ js ∨ dc hs i ≤ best.bestsize) →
      best.besti = best.bestj →
      best.besti + best.bestsize ≤ i + 1 →
      (∀ j, j2lenGet (flmInner old 0 hs.length i js new best).1 j ≤ dc hs j) ∧
      (∀ j, j2lenGet (flmInner old 0 hs.length i js new best).1 j ≤ dc hs i) ∧
      (j2lenGet (flmInner old 0 hs.length i js new best).1 i = dc hs i) ∧
      (∀ i2, i2 ≤ i → dc hs i2 ≤ (flmInner old 0 hs.length i js new best).2.bestsize) ∧
      (flmInner old 0 hs.length i js new best).2.besti
        = (flmInner old 0 hs.length i js new best).2.bestj ∧
      (flmInner old 0 hs.length i js new best).2.besti
        + (flmInner old 0 hs.length i js new best).2.bestsize ≤ i + 1 := by
  intro js
  induction js with
  | nil =>
    intro new best hsub hsort hAn hA2n hBn hC hCd hD hF
    rw [flmInner]
    rcases hBn with hin | hBn2
    · exact absurd hin (List.not_mem_nil i)
    rcases hCd with hin | hCd2
    · exact absurd hin (List.not_mem_nil i)
    refine ⟨hAn, hA2n, hBn2, ?_, hD, hF⟩
    intro i2 h2
    rcases Nat.lt_or_eq_of_le h2 with h3 | h3
    · exact hC i2 h3
    · rw [h3]; exact hCd2
  | cons j js ih =>
    intro new best hsub hsort hAn hA2n hBn hC hCd hD hF
    have hjmem := hsub j (List.mem_cons_self j js)
    obtain ⟨hjlt, hjeq, hvj, hvi⟩ := mem_b2jGet_identical hs hsc i j hi hjmem
    obtain ⟨hjlt_all, hsort2⟩ := List.sorted_cons.mp hsort
    rw [flmInner]
    rw [if_neg (by omega : ¬ j < 0), if_neg (by omega : ¬ hs.length ≤ j)]
    dsimp only
    have hkdcj : (if j = 0 then 0 else j2lenGet old (j - 1)) + 1 ≤ dc hs j := by
      rcases Nat.eq_zero_or_pos j with rfl | hj0
      · rw [if_pos rfl, dc_succ_of_valid hs 0 hvj, dcPrev]
      · obtain ⟨r, rfl⟩ : ∃ r, j = r + 1 := ⟨j - 1, by omega⟩
        rw [if_neg (by omega)]
        have h2 := hA (r + 1 - 1)
        rw [dc_succ_of_valid hs (r + 1) hvj, dcPrev]
        simp only [Nat.add_sub_cancel] at h2 ⊢
        omega
    have hkdci : (if j = 0 then 0 else j2lenGet old (j - 1)) + 1 ≤ dc hs i := by
      have h2 := hA2 (j - 1)
      rw [dc_succ_of_valid hs i hvi]
      split
      · omega
      · omega
    have hki : (if j = 0 then 0 else j2lenGet old (j - 1)) + 1 ≤ i + 1 :=
      le_trans hkdci (dc_le hs i)
    have hkeq : j = i → (if j = 0 then 0 else j2lenGet old (j - 1)) + 1 = dc hs i := by
      intro hji
      subst hji
      rcases Nat.eq_zero_or_pos j with rfl | hj0
      · rw [if_pos rfl, dc_succ_of_valid hs 0 hvj, dcPrev]
      · obtain ⟨r, rfl⟩ : ∃ r, j = r + 1 := ⟨j - 1, by omega⟩
        rw [if_neg (by omega)]
        have h2 := hB r rfl
        rw [dc_succ_of_valid hs (r + 1) hvj, dcPrev]
        simp only [Nat.add_sub_cancel]
        omega
    have hAn2 : ∀ j', j2lenGet ((j, (if j = 0 then 0 else j2lenGet old (j - 1)) + 1) :: new) j'
        ≤ dc hs j' := by
      intro j'
      rw [j2lenGet_cons]
      split
      · rename_i hjj; rw [← hjj]; exact hkdcj
      · exact hAn j'
    have hA2n2 : ∀ j', j2lenGet ((j, (if j = 0 then 0 else j2lenGet old (j - 1)) + 1) :: new) j'
        ≤ dc hs i := by
      intro j'
      rw [j2lenGet_cons]
      split
      · exact hkdci
      · exact hA2n j'
    have hBn2 : i ∈ js ∨
        j2lenGet ((j, (if j = 0 then 0 else j2lenGet old (j - 1)) + 1) :: new) i = dc hs i := by
      by_cases hji : j = i
      · right; rw [j2lenGet_cons, if_pos hji]; exact hkeq hji
      · rcases hBn with hin | hr
        · rcases List.mem_cons.mp hin with h2 | h2
          · exact absurd h2.symm hji
          · left; exact h2
        · right; rw [j2lenGet_cons, if_neg hji]; exact hr
    have hsub2 : ∀ j' ∈ js, j' ∈ b2jGet (chainB hs) (hs.getD i (.intH 0)) :=
      fun j' hj' => hsub j' (List.mem_cons_of_mem j hj')
    by_cases hup : best.bestsize < (if j = 0 then 0 else j2lenGet old (j - 1)) + 1
    · rw [if_pos hup]
      have hji : j = i := by
        by_contra hne
        rcases Nat.lt_or_ge j i with hlt | hge
        · exact absurd hup (not_lt.mpr (le_trans hkdcj (hC j hlt)))
        · have hgt : i < j := by omega
          have hnotin : i ∉ j :: js := by
            intro hin
            rcases List.mem_cons.mp hin with h2 | h2
            · omega
            · have := hjlt_all i h2
              omega
          rcases hCd with hin | hle
          · exact hnotin hin
          · exact absurd hup (not_lt.mpr (le_trans hkdci hle))
      refine ih _ _ hsub2 hsort2 hAn2 hA2n2 hBn2 ?_ ?_ ?_ ?_
      · intro i2 h2
        exact le_trans (le_of_lt (lt_of_le_of_lt (hC i2 h2) hup)) (le_refl _)
      · right
        dsimp only
        rw [← hkeq hji]
      · dsimp only
        rw [hji]
      · dsimp only
        omega
    · rw [if_neg hup]
      refine ih _ _ hsub2 hsort2 hAn2 hA2n2 hBn2 hC ?_ hD hF
      by_cases hji : j = i
      · right
        rw [← hkeq hji]
        omega
      · rcases hCd with hin | hr
        · rcases List.mem_cons.mp hin with h2 | h2
          · exact absurd h2.symm hji
          · left; exact h2
        · right; exact hr

theorem dc_zero_of_invalid (hs : List HVal) (i : Nat) (h : validPos hs i = false) :
    dc hs i = 0 := by
  cases i with
  | zero => rw [dc, h]; rfl
  | succ r => rw [dc, h]; rfl

/-- Invariant of the row loop of `find_longest_match` on an identical
pair of scalar sequences: the final best match lies on the main diagonal
and fits inside the sequence. -/
theorem flmRows_inv (hs : List HVal) (hsc : ∀ y ∈ hs, isScalarH y = true) :
    ∀ (m i : Nat) (old : J2Len) (best : Match3),
      i + m = hs.length →
      (∀ j, j2lenGet old j ≤ dc hs j) →
      (∀ j, j2lenGet old j ≤ dcPrev hs i) →
      (∀ r, i = r + 1 → j2lenGet old r = dc hs r) →
      (∀ i2, i2 < i → dc hs i2 ≤ best.bestsize) →
      best.besti = best.bestj →
      best.besti + best.bestsize ≤ i →
      (flmRows hs (chainB hs) 0 hs.length (List.range' i m) old best).besti
        = (flmRows hs (chainB hs) 0 hs.length (List.range' i m) old best).bestj ∧
      (flmRows hs (chainB hs) 0 hs.length (List.range' i m) old best).besti
        + (flmRows hs (chainB hs) 0 hs.length (List.range' i m) old best).bestsize
        ≤ hs.length := by
  intro m
  induction m with
  | zero =>
    intro i old best hn hA hA2 hB hC hD hF
    rw [List.range'_zero, flmRows]
    exact ⟨hD, by omega⟩
  | succ m ih =>
    intro i old best hn hA hA2 hB hC hD hF
    have hi : i < hs.length := by omega
    rw [List.range'_succ, flmRows]
    rcases b2jGet_chainB hs (hs.getD i (.intH 0)) hsc with hch | hch
    · -- the row's position list is the full ascending occurrence list, containing i
      have hmm : i ∈ b2jGet (chainB hs) (hs.getD i (.intH 0)) := by
        rw [hch, posList_mem]
        exact ⟨i, hi, by omega, hvalEq_refl_scalar _ (scalar_getD hs hsc i)⟩
      obtain ⟨cA, cA2, cB, cC, cD, cF⟩ :=
        flmInner_inv hs hsc i hi old hA hA2 hB
          (b2jGet (chainB hs) (hs.getD i (.intH 0))) [] best
          (fun _ hj => hj) (b2jGet_sorted_identical hs hsc i)
          (fun j => by rw [j2lenGet_nil]; omega)
          (fun j => by rw [j2lenGet_nil]; omega)
          (Or.inl hmm) hC (Or.inl hmm) hD (by omega)
      refine ih (i + 1) _ _ (by omega) cA (fun j => by rw [dcPrev]; exact cA2 j) ?_ ?_ cD cF
      · intro r hr
        have : r = i := by omega
        rw [this]
        exact cB
      · intro i2 h2
        exact cC i2 (by omega)
    · -- the element at i was removed as popular: the row contributes nothing
      rw [hch, flmInner]
      dsimp only
      have hvz : validPos hs i = false := by
        rw [validPos, hch]
        simp
      have hdz : dc hs i = 0 := dc_zero_of_invalid hs i hvz
      refine ih (i + 1) _ _ (by omega) (fun j => by rw [j2lenGet_nil]; omega)
        (fun j => by rw [j2lenGet_nil]; omega) ?_ ?_ hD (by omega)
      · intro r hr
        have : r = i := by omega
        rw [this, j2lenGet_nil, hdz]
      · intro i2 h2
        rcases Nat.lt_or_ge i2 i with h3 | h3
        · exact hC i2 h3
        · have : i2 = i := by omega
          rw [this, hdz]
          omega

theorem flmExtendLeft_diag (hs : List HVal) (hsc : ∀ y ∈ hs, isScalarH y = true) :
    ∀ (bi bs : Nat), flmExtendLeft hs hs 0 0 bi bi bs = ⟨0, 0, bs + bi⟩ := by
  intro bi
  induction bi with
  | zero => intro bs; rw [flmExtendLeft]; congr 1
  | succ b ih =>
    intro bs
    rw [flmExtendLeft]
    rw [if_pos ⟨by omega, by omega, by
      simp only [Nat.add_sub_cancel]
      exact hvalEq_refl_scalar _ (scalar_getD hs hsc b)⟩]
    simp only [Nat.add_sub_cancel]
    rw [ih (bs + 1)]
    congr 1
    omega

theorem flmExtendRight_full (hs : List HVal) (hsc : ∀ y ∈ hs, isScalarH y = true) :
    ∀ (fuel s : Nat), hs.length ≤ s + fuel → s ≤ hs.length →
      flmExtendRight hs hs hs.length hs.length 0 0 fuel s = hs.length := by
  intro fuel
  induction fuel with
  | zero =>
    intro s h1 h2
    rw [flmExtendRight]
    omega
  | succ f ih =>
    intro s h1 h2
    rw [flmExtendRight]
    simp only [Nat.zero_add]
    by_cases hlt : s < hs.length
    · rw [if_pos ⟨hlt, hlt, hvalEq_refl_scalar _ (scalar_getD hs hsc s)⟩]
      exact ih (s + 1) (by omega) (by omega)
    · rw [if_neg (by intro hcon; exact hlt hcon.1)]
      omega

theorem flm_empty (a b : List HVal) (b2j : B2J) (q r : Nat) :
    findLongestMatch a b b2j q q r r = ⟨q, r, 0⟩ := by
  rw [findLongestMatch, Nat.sub_self, List.range'_zero, flmRows]
  dsimp only
  have hL : flmExtendLeft a b q r q r 0 = ⟨q, r, 0⟩ := by
    cases q with
    | zero => rw [flmExtendLeft]
    | succ t =>
      rw [flmExtendLeft, if_neg (by intro hcon; exact absurd hcon.1 (by omega))]
  rw [hL]
  dsimp only
  have hR : flmExtendRight a b q r q r q 0 = 0 := by
    cases q with
    | zero => rw [flmExtendRight]
    | succ t =>
      rw [flmExtendRight, if_neg (by intro hcon; exact absurd hcon.1 (by omega))]
  rw [hR]

/-- On an identical pair of scalar sequences the full-range
`find_longest_match` always returns the whole sequence, autojunk or not:
the DP's best match is diagonal, and the two extension loops stretch it
to the full length. -/
theorem flm_identical (hs : List HVal) (hsc : ∀ y ∈ hs, isScalarH y = true) :
    findLongestMatch hs hs (chainB hs) 0 hs.length 0 hs.length = ⟨0, 0, hs.length⟩ := by
  obtain ⟨hD, hF⟩ := flmRows_inv hs hsc hs.length 0 [] ⟨0, 0, 0⟩ (by omega)
    (fun j => by rw [j2lenGet_nil]; omega)
    (fun j => by rw [j2lenGet_nil, dcPrev])
    (fun r hr => absurd hr (by omega))
    (fun i2 h2 => absurd h2 (by omega)) rfl (by decide)
  rw [findLongestMatch, Nat.sub_zero]
  rw [← hD, flmExtendLeft_diag hs hsc]
  dsimp only
  rw [flmExtendRight_full hs hsc hs.length _ (by omega) (by omega)]

theorem matchingBlocksAux_empty (a b : List HVal) (b2j : B2J) :
    ∀ (fuel q r : Nat), matchingBlocksAux a b b2j fuel q q r r = [] := by
  intro fuel q r
  cases fuel with
  | zero => rw [matchingBlocksAux]
  | succ f =>
    rw [matchingBlocksAux, flm_empty]
    rw [if_pos rfl]

theorem getMatchingBlocks_identical (hs : List HVal)
    (hsc : ∀ y ∈ hs, isScalarH y = true) :
    getMatchingBlocks hs hs =
      (if hs.length = 0 then [] else [(0, 0, hs.length)]) ++ [(hs.length, hs.length, 0)] := by
  rw [getMatchingBlocks]
  have haux : matchingBlocksAux hs hs (chainB hs) (hs.length + hs.length + 1) 0 hs.length
      0 hs.length = if hs.length = 0 then [] else [(0, 0, hs.length)] := by
    rw [matchingBlocksAux, flm_identical hs hsc]
    dsimp only
    by_cases hn : hs.length = 0
    · rw [if_pos hn, if_pos hn]
    · rw [if_neg hn, if_neg hn]
      simp only [Nat.zero_add]
      rw [matchingBlocksAux_empty, matchingBlocksAux_empty]
      rfl
  rw [haux]
  by_cases hn : hs.length = 0
  · rw [if_pos hn]
    rfl
  · rw [if_neg hn, mergeAdjacent, if_pos ⟨rfl, rfl⟩, mergeAdjacent, if_pos (by omega)]
    simp only [Nat.zero_add]

theorem getOpcodes_identical (hs : List HVal) (hsc : ∀ y ∈ hs, isScalarH y = true) :
    getOpcodes hs hs =
      if hs.length = 0 then [] else [⟨.equal, 0, hs.length, 0, hs.length⟩] := by
  rw [getOpcodes, getMatchingBlocks_identical hs hsc]
  by_cases hn : hs.length = 0
  · rw [if_pos hn, if_pos hn, hn]
    rfl
  · rw [if_neg hn, if_neg hn]
    show getOpcodesAux 0 0 ((0, 0, hs.length) :: [(hs.length, hs.length, 0)]) = _
    rw [getOpcodesAux]
    rw [if_neg (by omega), if_neg (by omega), if_neg (by omega), if_pos hn]
    rw [getOpcodesAux]
    rw [if_neg (by omega), if_neg (by omega), if_neg (by omega),
      if_neg (by simp), getOpcodesAux]
    simp

theorem groupLoop_single_equal (c : Int) (hc : 0 ≤ c) (p q p2 q2 : Nat) :
    groupLoop (c + c) c (fixupLast c (fixupHead c [⟨.equal, p, q, p2, q2⟩])) [] = [] := by
  rw [fixupHead, fixupLast]
  have hlast : ([(⟨.equal, (max (p : Int) ((q : Int) - c)).toNat, q,
      (max (p2 : Int) ((q2 : Int) - c)).toNat, q2⟩ : Opcode)]).getLast? =
      some ⟨.equal, (max (p : Int) ((q : Int) - c)).toNat, q,
        (max (p2 : Int) ((q2 : Int) - c)).toNat, q2⟩ := rfl
  rw [hlast]
  simp only [List.dropLast_single, List.nil_append]
  rw [groupLoop]
  rw [if_neg ?hne]
  case hne =>
    intro hcon
    have h2 := hcon.2
    dsimp only at h2
    have h3 : min (q : Int) (((max (p : Int) ((q : Int) - c)).toNat : Int) + c)
        ≤ ((max (p : Int) ((q : Int) - c)).toNat : Int) + c := min_le_right _ _
    have h4 : (0 : Int) ≤ ((max (p : Int) ((q : Int) - c)).toNat : Int) + c := by positivity
    generalize hm : min (q : Int) (((max (p : Int) ((q : Int) - c)).toNat : Int) + c) = m at h2 h3
    generalize hM : (max (p : Int) ((q : Int) - c)).toNat = M at h2 h3 h4
    omega
  simp only [List.nil_append]
  rw [groupLoop]
  simp

theorem getGroupedOpcodes_identical (hs : List HVal)
    (hsc : ∀ y ∈ hs, isScalarH y = true) (c : Int) (hc : 0 ≤ c) :
    getGroupedOpcodes hs hs c = [] := by
  rw [getGroupedOpcodes, getOpcodes_identical hs hsc]
  by_cases hn : hs.length = 0
  · rw [if_pos hn]
    rw [if_pos (rfl : ([] : List Opcode) = [])]
    exact groupLoop_single_equal c hc 0 1 0 1
  · rw [if_neg hn]
    rw [if_neg (by simp : ¬([(⟨.equal, 0, hs.length, 0, hs.length⟩ : Opcode)] = []))]
    exact groupLoop_single_equal c hc 0 hs.length 0 hs.length

theorem hashableV_scalar (x : Val) (h : isScalarV x = true) :
    ∃ hx, hashableV x = some hx ∧ isScalarH hx = true := by
  cases x with
  | intV n => exact ⟨.intH n, rfl, rfl⟩
  | strV s => exact ⟨.strH s, rfl, rfl⟩
  | _ => simp [isScalarV] at h

theorem hashableList_scalar (xs : List Val) (h : ∀ x ∈ xs, isScalarV x = true) :
    ∃ hsl, hashableList xs = some hsl ∧ ∀ y ∈ hsl, isScalarH y = true := by
  induction xs with
  | nil => exact ⟨[], rfl, by simp⟩
  | cons x xs ih =>
    obtain ⟨hx, hhx, hsx⟩ := hashableV_scalar x (h x (List.mem_cons_self x xs))
    obtain ⟨hsl, hhl, hsl2⟩ := ih fun z hz => h z (List.mem_cons_of_mem x hz)
    refine ⟨hx :: hsl, ?_, ?_⟩
    · rw [hashableList]
      rw [hhx, hhl]
      rfl
    · intro y hy
      rcases List.mem_cons.mp hy with rfl | hy2
      · exact hsx
      · exact hsl2 y hy2

theorem diffSeq_identical_list (ctx : Ctx) (recur : Val → Val → Except PyErr DiffResult)
    (xs : List Val) (hsc : ∀ x ∈ xs, isScalarV x = true)
    (c : Int) (hc : 0 ≤ c) (ff tf : String) (cwf : Bool) :
    diffSeq ctx recur (.listV xs) (.listV xs) c ff tf cwf =
      .ok ⟨.listT, "[", "]", ff, tf, []⟩ := by
  obtain ⟨hsl, hhl, hsl2⟩ := hashableList_scalar xs hsc
  rw [diffSeq]
  rw [if_neg (by simp [hasIterOrGetitem])]
  simp only [seqElems]
  rw [hhl]
  simp only [bind, Except.bind, pure, Except.pure]
  rw [if_neg (by simp [pyType]), if_pos (by simp [pyType])]
  rw [getGroupedOpcodes_identical hsl hsl2 c hc]
  simp [pure, Except.pure]

theorem diffSeq_identical_tuple (ctx : Ctx) (recur : Val → Val → Except PyErr DiffResult)
    (xs : List Val) (hsc : ∀ x ∈ xs, isScalarV x = true)
    (c : Int) (hc : 0 ≤ c) (ff tf : String) (cwf : Bool) :
    diffSeq ctx recur (.tupleV xs) (.tupleV xs) c ff tf cwf =
      .ok ⟨.tupleT, "(", ")", ff, tf, []⟩ := by
  obtain ⟨hsl, hhl, hsl2⟩ := hashableList_scalar xs hsc
  rw [diffSeq]
  rw [if_neg (by simp [hasIterOrGetitem])]
  simp only [seqElems]
  rw [hhl]
  simp only [bind, Except.bind, pure, Except.pure]
  rw [if_pos (by simp [pyType])]
  rw [getGroupedOpcodes_identical hsl hsl2 c hc]
  simp [pure, Except.pure]

theorem unifiedDiffStrings_identical (s ff tf : String) (c : Int) (hc : 0 ≤ c) :
    unifiedDiffStrings s s ff tf c = "" := by
  rw [unifiedDiffStrings, unifiedDiff]
  rw [getGroupedOpcodes_identical ((splitNl s).map .strH)
    (by intro y hy; rcases List.mem_map.mp hy with ⟨l, _, rfl⟩; rfl) c hc]
  rfl

theorem pyLookupOpt_scalar_mem (a : List (Val × Val)) (k : Val) (hk : isScalarV k = true)
    (hkin : k ∈ a.map Prod.fst) :
    ∃ v, pyLookupOpt a k = some v ∧ ∃ kv ∈ a, kv.2 = v := by
  induction a with
  | nil => simp at hkin
  | cons kv a ih =>
    rcases kv with ⟨k2, v2⟩
    rw [pyLookupOpt]
    by_cases he : pyEq k k2 = true
    · exact ⟨v2, by rw [if_pos he], ⟨(k2, v2), List.mem_cons_self _ _, rfl⟩⟩
    · have hkin2 : k ∈ a.map Prod.fst := by
        simp only [List.map_cons, List.mem_cons] at hkin
        rcases hkin with rfl | h2
        · exact absurd (pyEq_refl_scalar k hk) he
        · exact h2
      obtain ⟨v, hv, kv2, hkv2, hveq⟩ := ih hkin2
      exact ⟨v, by rw [if_neg he]; exact hv, ⟨kv2, List.mem_cons_of_mem _ hkv2, hveq⟩⟩

theorem pyKeyIn_scalar_mem (a : List (Val × Val)) (k : Val) (hk : isScalarV k = true)
    (hkin : k ∈ a.map Prod.fst) : pyKeyIn a k = true := by
  obtain ⟨v, hv, _⟩ := pyLookupOpt_scalar_mem a k hk hkin
  rw [pyKeyIn, hv]
  rfl

theorem diffDictStep_identical (ctx : Ctx) (recur : Val → Val → Except PyErr DiffResult)
    (a : List (Val × Val)) (cwf : Bool) (depth : Nat) (k : Val)
    (hk : isScalarV k = true) (hkin : k ∈ a.map Prod.fst)
    (hvals : ∀ kv ∈ a, isScalarV kv.2 = true) :
    diffDictStep ctx recur a a cwf depth k = .ok ([], true) := by
  obtain ⟨v, hv, kv2, hkv2, hveq⟩ := pyLookupOpt_scalar_mem a k hk hkin
  have hvs : isScalarV v = true := hveq ▸ hvals kv2 hkv2
  have hlk : pyLookup a k = v := by rw [pyLookup, hv]; rfl
  rw [diffDictStep, hv]
  dsimp only
  rw [hlk, if_pos (pyEq_refl_scalar v hvs)]

theorem diffDictLoop_identical (ctx : Ctx) (recur : Val → Val → Except PyErr DiffResult)
    (a : List (Val × Val)) (cwf : Bool) (depth : Nat)
    (hkeys : ∀ k ∈ a.map Prod.fst, isScalarV k = true)
    (hvals : ∀ kv ∈ a, isScalarV kv.2 = true) :
    ∀ (keys : List Val) (c : Int), (∀ k ∈ keys, k ∈ a.map Prod.fst) →
      ∃ entries cF, diffDictLoop ctx recur a a cwf depth keys c = .ok (entries, cF) ∧
        ∀ e ∈ entries, ∃ k2 v2, e = DiffEntry.changeE .equal (.ditems [⟨k2, .rawD v2, 0⟩]) ∧
          k2 ∈ a.map Prod.fst := by
  intro keys
  induction keys with
  | nil =>
    intro c hsub
    exact ⟨[], c, rfl, by simp⟩
  | cons k keys ih =>
    intro c hsub
    have hkin := hsub k (List.mem_cons_self k keys)
    have hk := hkeys k hkin
    obtain ⟨entries, cF, hloop, hent⟩ :=
      ih (c - 1) fun k2 hk2 => hsub k2 (List.mem_cons_of_mem k hk2)
    refine ⟨(if c ≠ 0 then
        [DiffEntry.changeE .equal (.ditems [⟨k, .rawD (pyLookup a k), 0⟩])] else [])
        ++ entries, cF, ?_, ?_⟩
    · rw [diffDictLoop, diffDictStep_identical ctx recur a cwf depth k hk hkin hvals]
      simp only [bind, Except.bind]
      simp [hloop]
    · intro e he
      rcases List.mem_append.mp he with he2 | he2
      · split at he2
        · rcases List.mem_singleton.mp he2 with rfl
          exact ⟨k, pyLookup a k, rfl, hkin⟩
        · cases he2
      · exact hent e he2

theorem mapM_keys_ok {P : SortKey → Prop} (ctx : Ctx) :
    ∀ l : List DiffEntry,
      (∀ e ∈ l, ∃ key, diffitemDictitemSortKey ctx e = .ok key ∧ P key) →
      ∃ ks, l.mapM (diffitemDictitemSortKey ctx) = .ok ks ∧ ∀ key ∈ ks, P key := by
  intro l
  induction l with
  | nil =>
    intro h
    exact ⟨[], rfl, by simp⟩
  | cons e l ih =>
    intro h
    obtain ⟨key, hkey, hP⟩ := h e (List.mem_cons_self e l)
    obtain ⟨ks, hks, hPs⟩ := ih fun e2 he2 => h e2 (List.mem_cons_of_mem e he2)
    refine ⟨key :: ks, ?_, ?_⟩
    · rw [List.mapM_cons, hkey, hks]
      simp [bind, Except.bind, pure, Except.pure]
    · intro k2 hk2
      rcases List.mem_cons.mp hk2 with rfl | hk3
      · exact hP
      · exact hPs k2 hk3

theorem homog_strK (ks : List SortKey) (h : ∀ k ∈ ks, ∃ s, k = SortKey.strK s) :
    sortKeysHomogeneous ks = true := by
  cases ks with
  | nil => rfl
  | cons k ks =>
    obtain ⟨s, rfl⟩ := h k (List.mem_cons_self k ks)
    rw [sortKeysHomogeneous]
    rw [List.all_eq_true]
    intro k2 hk2
    obtain ⟨s2, rfl⟩ := h k2 (List.mem_cons_of_mem _ hk2)
    rfl

theorem homog_intK (ks : List SortKey) (h : ∀ k ∈ ks, ∃ m, k = SortKey.intK m) :
    sortKeysHomogeneous ks = true := by
  cases ks with
  | nil => rfl
  | cons k ks =>
    obtain ⟨m, rfl⟩ := h k (List.mem_cons_self k ks)
    rw [sortKeysHomogeneous]
    rw [List.all_eq_true]
    intro k2 hk2
    obtain ⟨m2, rfl⟩ := h k2 (List.mem_cons_of_mem _ hk2)
    rfl

theorem diffDict_identical (ctx : Ctx) (recur : Val → Val → Except PyErr DiffResult)
    (a : List (Val × Val)) (c : Int) (depth : Nat) (ff tf : String) (cwf : Bool)
    (hhom : (∀ kv ∈ a, ∃ s, kv.1 = Val.strV s) ∨ (∀ kv ∈ a, ∃ m, kv.1 = Val.intV m))
    (hvals : ∀ kv ∈ a, isScalarV kv.2 = true) :
    ∃ d, diffDict ctx recur a a c depth ff tf cwf = .ok d ∧ pyBoolD d = false := by
  have hkeys : ∀ k ∈ a.map Prod.fst, isScalarV k = true := by
    intro k hk
    rcases List.mem_map.mp hk with ⟨kv, hkv, rfl⟩
    rcases hhom with h | h
    · obtain ⟨s, hs⟩ := h kv hkv
      rw [hs]
      rfl
    · obtain ⟨m, hm⟩ := h kv hkv
      rw [hm]
      rfl
  obtain ⟨entries, cF, hloop, hent⟩ :=
    diffDictLoop_identical ctx recur a cwf depth hkeys hvals (a.map Prod.fst) c
      (fun k hk => hk)
  have hins : ((a.map Prod.fst).filterMap fun k =>
      if pyKeyIn a k then none
      else some (DiffEntry.changeE .insert (.ditems [⟨k, .rawD (pyLookup a k), 0⟩]))) = [] := by
    rw [List.filterMap_eq_nil_iff]
    intro k hk
    rw [if_pos (pyKeyIn_scalar_mem a k (hkeys k hk) hk)]
  have hkeyok : ∀ e ∈ entries, ∃ key, diffitemDictitemSortKey ctx e = .ok key ∧
      ((∀ kv ∈ a, ∃ s, kv.1 = Val.strV s) → ∃ s, key = SortKey.strK s) ∧
      ((∀ kv ∈ a, ∃ m, kv.1 = Val.intV m) → ∃ m, key = SortKey.intK m) := by
    intro e he
    obtain ⟨k2, v2, rfl, hk2⟩ := hent e he
    rcases List.mem_map.mp hk2 with ⟨kv, hkv, hfst⟩
    refine ⟨sortKeyOfVal ctx k2, rfl, ?_, ?_⟩
    · intro hstr
      obtain ⟨s, hs⟩ := hstr kv hkv
      rw [← hfst, hs]
      exact ⟨s, rfl⟩
    · intro hint
      obtain ⟨m, hm⟩ := hint kv hkv
      rw [← hfst, hm]
      exact ⟨m, rfl⟩
  have hsort : ∃ sorted, sortDiffs ctx entries = .ok sorted ∧ sorted.Perm entries := by
    obtain ⟨ks, hmapM, hPs⟩ := mapM_keys_ok ctx entries hkeyok
    have hhomog : sortKeysHomogeneous ks = true := by
      rcases hhom with h | h
      · exact homog_strK ks fun k hk => (hPs k hk).1 h
      · exact homog_intK ks fun k hk => (hPs k hk).2 h
    have heq : sortDiffs ctx entries =
        .ok ((stableSortPairs (ks.zip entries)).map Prod.snd) := by
      rw [sortDiffs, hmapM]
      simp only [bind, Except.bind]
      rw [if_pos hhomog]
    exact ⟨_, heq, sortDiffsPerm ctx entries _ heq⟩
  obtain ⟨sorted, hsorteq, hperm⟩ := hsort
  refine ⟨⟨.dictT, "\x7b", "\x7d", ff, tf,
    sorted ++ (if cF < 0 then [DiffEntry.contextEndContainer] else [])⟩, ?_, ?_⟩
  · rw [diffDict, hloop]
    simp only [bind, Except.bind]
    rw [hins, List.append_nil, hsorteq]
  · rw [pyBoolD]
    simp only [DataDiff.diffs]
    rw [List.any_eq_false]
    intro e he
    rcases List.mem_append.mp he with he2 | he2
    · obtain ⟨k2, v2, rfl, _⟩ := hent e (hperm.mem_iff.mp he2)
      simp [entryTag]
    · split at he2
      · rcases List.mem_singleton.mp he2 with rfl
        simp [entryTag]
      · cases he2

theorem diffV_identical_list (ctx : Ctx) (fuel : Nat) (xs : List Val)
    (hsc : ∀ x ∈ xs, isScalarV x = true) (c : Int) (hc : 0 ≤ c) (depth : Nat)
    (ff tf : String) (cwf : Bool) :
    diffV ctx (fuel + 1) (.listV xs) (.listV xs) c depth ff tf cwf
      = .ok (.tree ⟨.listT, "[", "]", ff, tf, []⟩) := by
  have hseq := diffSeq_identical_list ctx
    (fun x y => diffV ctx fuel x y c (depth + 1) "a" "b" cwf) xs hsc c hc ff tf cwf
  rw [diffV]
  dsimp only
  rw [if_neg (by simp [pyType]), if_neg (by simp [pyType]), if_neg (by simp [hasSetOps])]
  rw [tryDiffSeq, hseq]
  intro sa sb h1 h2
  cases h1

theorem diffV_identical_tuple (ctx : Ctx) (fuel : Nat) (xs : List Val)
    (hsc : ∀ x ∈ xs, isScalarV x = true) (c : Int) (hc : 0 ≤ c) (depth : Nat)
    (ff tf : String) (cwf : Bool) :
    diffV ctx (fuel + 1) (.tupleV xs) (.tupleV xs) c depth ff tf cwf
      = .ok (.tree ⟨.tupleT, "(", ")", ff, tf, []⟩) := by
  have hseq := diffSeq_identical_tuple ctx
    (fun x y => diffV ctx fuel x y c (depth + 1) "a" "b" cwf) xs hsc c hc ff tf cwf
  rw [diffV]
  dsimp only
  rw [if_neg (by simp [pyType]), if_neg (by simp [pyType]), if_neg (by simp [hasSetOps])]
  rw [tryDiffSeq, hseq]
  intro sa sb h1 h2
  cases h1

theorem diffV_identical_str (ctx : Ctx) (fuel : Nat) (s : String)
    (hnl : hasNewline s = true) (c : Int) (hc : 0 ≤ c) (depth : Nat)
    (ff tf : String) (cwf : Bool) :
    diffV ctx (fuel + 1) (.strV s) (.strV s) c depth ff tf cwf = .ok (.text "") := by
  rw [diffV]
  rw [if_pos (Or.inl hnl), unifiedDiffStrings_identical s ff tf c hc]

theorem diffV_identical_dict (ctx : Ctx) (fuel : Nat) (a : List (Val × Val))
    (hhom : (∀ kv ∈ a, ∃ s, kv.1 = Val.strV s) ∨ (∀ kv ∈ a, ∃ m, kv.1 = Val.intV m))
    (hvals : ∀ kv ∈ a, isScalarV kv.2 = true) (c : Int) (depth : Nat)
    (ff tf : String) (cwf : Bool) :
    ∃ d, diffV ctx (fuel + 1) (.dictV a) (.dictV a) c depth ff tf cwf
      = .ok (.tree d) ∧ pyBoolD d = false := by
  obtain ⟨d, hd, hb⟩ := diffDict_identical ctx
    (fun x y => diffV ctx fuel x y c (depth + 1) "a" "b" cwf) a c depth ff tf cwf hhom hvals
  refine ⟨d, ?_, hb⟩
  rw [diffV]
  dsimp only
  rw [if_neg (by simp [pyType]), if_pos (show pyType (Val.dictV a) = .dictT from rfl)]
  dsimp only [dictOf]
  rw [hd]
  intro sa sb h1 h2
  cases h1

/-- C1: reflexivity of `diff` on the scalar-element cases that actually
hold.  For any context budget `c ≥ 0`: a scalar list or tuple diffed
against itself yields a Diff Tree with an empty entry list (so its
truthiness is `false`); a multi-line string yields the empty text diff;
and a dict whose keys are uniformly text or uniformly numeric and whose
values are scalars yields a Diff Tree whose truthiness is `false`.  The
claim's remaining cases are refuted by `c1Counterexample`: a set diffed
against itself is always truthy (its `delete`/`insert` runs are emitted
even when empty), and a dict with mixed text/numeric keys raises
`TypeError` in the deterministic sort. -/
theorem c1Claim (ctx : Ctx) (fuel : Nat) (c : Int) (depth : Nat) (ff tf : String)
    (cwf : Bool) (hc : 0 ≤ c) :
    (∀ xs : List Val, (∀ x ∈ xs, isScalarV x = true) →
      diffV ctx (fuel + 1) (.listV xs) (.listV xs) c depth ff tf cwf
        = .ok (.tree ⟨.listT, "[", "]", ff, tf, []⟩)) ∧
    (∀ xs : List Val, (∀ x ∈ xs, isScalarV x = true) →
      diffV ctx (fuel + 1) (.tupleV xs) (.tupleV xs) c depth ff tf cwf
        = .ok (.tree ⟨.tupleT, "(", ")", ff, tf, []⟩)) ∧
    (∀ s : String, hasNewline s = true →
      diffV ctx (fuel + 1) (.strV s) (.strV s) c depth ff tf cwf = .ok (.text "")) ∧
    (∀ a : List (Val × Val),
      ((∀ kv ∈ a, ∃ s, kv.1 = Val.strV s) ∨ (∀ kv ∈ a, ∃ m, kv.1 = Val.intV m)) →
      (∀ kv ∈ a, isScalarV kv.2 = true) →
      ∃ d, diffV ctx (fuel + 1) (.dictV a) (.dictV a) c depth ff tf cwf
        = .ok (.tree d) ∧ pyBoolD d = false) := by
  refine ⟨?_, ?_, ?_, ?_⟩
  · intro xs hsc
    exact diffV_identical_list ctx fuel xs hsc c hc depth ff tf cwf
  · intro xs hsc
    exact diffV_identical_tuple ctx fuel xs hsc c hc depth ff tf cwf
  · intro s hnl
    exact diffV_identical_str ctx fuel s hnl c hc depth ff tf cwf
  · intro a hhom hvals
    exact diffV_identical_dict ctx fuel a hhom hvals c depth ff tf cwf

theorem c1ClaimWitness :
    (0 : Int) ≤ 3 ∧
    diffV ctxZero 5 (.listV [.intV 1, .strV "x"]) (.listV [.intV 1, .strV "x"])
        3 0 "a" "b" false = .ok (.tree ⟨.listT, "[", "]", "a", "b", []⟩) ∧
    diffV ctxZero 5 (.tupleV [.intV 2]) (.tupleV [.intV 2]) 3 0 "a" "b" false
      = .ok (.tree ⟨.tupleT, "(", ")", "a", "b", []⟩) ∧
    diffV ctxZero 5 (.strV "p\nq") (.strV "p\nq") 3 0 "a" "b" false = .ok (.text "") ∧
    (∃ d, diffV ctxZero 5 (.dictV [(.strV "k", .intV 7)])
        (.dictV [(.strV "k", .intV 7)]) 3 0 "a" "b" false
      = .ok (.tree d) ∧ pyBoolD d = false) :=
  ⟨by decide,
   (c1Claim ctxZero 4 3 0 "a" "b" false (by decide)).1 _
     (by intro x hx
         rcases List.mem_cons.mp hx with rfl | hx2
         · rfl
         · rcases List.mem_singleton.mp hx2 with rfl
           rfl),
   (c1Claim ctxZero 4 3 0 "a" "b" false (by decide)).2.1 _
     (by intro x hx
         rcases List.mem_singleton.mp hx with rfl
         rfl),
   (c1Claim ctxZero 4 3 0 "a" "b" false (by decide)).2.2.1 _ rfl,
   (c1Claim ctxZero 4 3 0 "a" "b" false (by decide)).2.2.2 _
     (Or.inl (by intro kv hkv
                 rcases List.mem_singleton.mp hkv with rfl
                 exact ⟨"k", rfl⟩))
     (by intro kv hkv
         rcases List.mem_singleton.mp hkv with rfl
         rfl)⟩

/-- C1, counterexample to the claimed set and general-dict cases:
`diff({1}, {1})` returns a truthy Diff Tree (its unconditional
`delete`/`insert` runs carry empty sets but still count as differences in
`__bool__`), and `diff({1: 0, 'x': 0}, {1: 0, 'x': 0})` raises `TypeError`
from the mixed-key sort instead of returning an empty diff. -/
theorem c1Counterexample :
    (∃ d, diffV ctxZero 5 (.setV [.intV 1]) (.setV [.intV 1]) 3 0 "a" "b" false
        = .ok (.tree d) ∧ pyBoolD d = true) ∧
    diffV ctxZero 5 (.dictV [(.intV 1, .intV 0), (.strV "x", .intV 0)])
        (.dictV [(.intV 1, .intV 0), (.strV "x", .intV 0)]) 3 0 "a" "b" false
      = .error (.typeError "unorderable key types") :=
  ⟨⟨_, rfl, rfl⟩, rfl⟩
